import Mathlib

/-!  Verification development for the readable-content extraction engine of
`newscli` (`src/newscli/article.py`).

The engine is a pure transformation `document text + optional base URL →
ArticleContent`.  We embed it shallowly:

* strings are `List Char` (Python `str`, one entry per code point);
* the parsed HTML document (the BeautifulSoup tree) is the inductive type
  `Node`; the HTML parser itself is an external library, so the HTML branch of
  `extract_readable_text` takes the parsed tree (via a `parse` parameter) and
  the tree-level pipeline `extract_from_soup` is the object of study;
* `urllib.parse.urljoin` is likewise external; it enters as an explicit
  `resolve` parameter of the image pipeline;
* Python float arithmetic in the candidate scorer is embedded as exact `ℚ`
  arithmetic (the scorer only adds, divides and compares small decimals);
* BeautifulSoup tree operations used by the source (`find_all`, `get_text`
  with `strip=True`, attribute lookup, multi-valued `class` matching,
  `decompose`) are given their documented semantics over `Node`.

Everything is executable; concrete runs are checked with `decide`/`rfl`.  -/

set_option maxRecDepth 8000

namespace NewsCLI

/-! ## Python character classes -/

/-- Characters for which Python `str.isspace()` holds (the set used by
`str.strip()` / `str.rstrip()` and by `\s` in Python's `re`). -/
def isPyWs (c : Char) : Bool :=
  c.toNat ∈ [0x20, 0x9, 0xA, 0xD, 0xB, 0xC, 0x1C, 0x1D, 0x1E, 0x1F,
             0x85, 0xA0, 0x1680, 0x2000, 0x2001, 0x2002, 0x2003, 0x2004,
             0x2005, 0x2006, 0x2007, 0x2008, 0x2009, 0x200A, 0x2028,
             0x2029, 0x202F, 0x205F, 0x3000]

/-- Line-boundary characters of Python `str.splitlines` (besides `"\r\n"`,
which is treated as a single boundary). -/
def isBreakChar (c : Char) : Bool :=
  c.toNat ∈ [0xA, 0xD, 0xB, 0xC, 0x1C, 0x1D, 0x1E, 0x85, 0x2028, 0x2029]

/-- Horizontal whitespace of the `[ \t]` class in `_clean_text`. -/
def isHws (c : Char) : Bool := c = ' ' || c = '\t'

/-- Whitespace within one line: Python-space that is not a newline.  Used to
state line-anchored regex matches at character level. -/
def lws (c : Char) : Bool := isPyWs c && !(c = '\n')

/-! ## Python string primitives -/

/-- Drop the longest suffix all of whose characters satisfy `p`. -/
def dropTailWhile (p : Char → Bool) : List Char → List Char
  | [] => []
  | c :: rest =>
    match dropTailWhile p rest with
    | [] => if p c then [] else [c]
    | r => c :: r

/-- Python `str.strip()` (no arguments): remove `isspace` characters from both
ends. -/
def pyStrip (s : List Char) : List Char := dropTailWhile isPyWs (s.dropWhile isPyWs)

/-- Python `str.rstrip()`. -/
def pyRstrip (s : List Char) : List Char := dropTailWhile isPyWs s

/-- Python `str.lower()`, restricted to the ASCII mapping (all patterns the
source lowercases against are ASCII, so this agrees with CPython wherever it
matters). -/
def pyLower (s : List Char) : List Char := s.map Char.toLower

/-- Python `str.splitlines()`: split at line boundaries, treating `"\r\n"` as
one boundary, with no trailing empty line (`""` gives `[]`). -/
def pySplitlines : List Char → List (List Char)
  | [] => []
  | '\r' :: '\n' :: rest => [] :: pySplitlines rest
  | c :: rest =>
    if isBreakChar c then [] :: pySplitlines rest
    else
      match pySplitlines rest with
      | [] => [[c]]
      | l :: ls => (c :: l) :: ls

/-- `needle` occurs as a contiguous substring of `hay`. -/
def containsSub (needle : List Char) : List Char → Bool
  | [] => needle.isEmpty
  | hay@(_ :: rest) => needle.isPrefixOf hay || containsSub needle rest

/-- Some word of `words` occurs as a substring of `s`.  This is
`re.search(r"(w1|w2|...)", s)` for literal alternatives. -/
def anyWordIn (words : List (List Char)) (s : List Char) : Bool :=
  words.any fun w => containsSub w s

/-- Case-insensitive character equality, ASCII case folding (`re.I`). -/
def ciEq (a b : Char) : Bool := a.toLower == b.toLower

/-- `pat` is a case-insensitive prefix of the second argument. -/
def ciStarts : List Char → List Char → Bool
  | [], _ => true
  | _ :: _, [] => false
  | p :: ps, c :: cs => ciEq p c && ciStarts ps cs

/-- Python `int(str)`: digit run with single underscores between digits. -/
def pyIntDigits : List Char → Option Nat :=
  fun s =>
    match s with
    | [] => none
    | c :: rest => if c.isDigit then go (c.toNat - 48) rest else none
where
  go (acc : Nat) : List Char → Option Nat
    | [] => some acc
    | '_' :: d :: rest => if d.isDigit then go (acc * 10 + (d.toNat - 48)) rest else none
    | '_' :: [] => none
    | d :: rest => if d.isDigit then go (acc * 10 + (d.toNat - 48)) rest else none

/-- Python `int(str)`: strip whitespace, optional sign, digits (with
underscores); `none` models the `ValueError`. -/
def pyInt (s : List Char) : Option Int :=
  match pyStrip s with
  | '+' :: r => (pyIntDigits r).map fun n => (n : Int)
  | '-' :: r => (pyIntDigits r).map fun n => -(n : Int)
  | r => (pyIntDigits r).map fun n => (n : Int)

/-! ## The document tree

`Node` is the parsed document: what `BeautifulSoup(sanitized, "html.parser")`
hands to the rest of `extract_readable_text`.  Tag and attribute names are as
produced by the parser (`html.parser` lower-cases them). -/

inductive Node where
  | elem (tag : List Char) (attrs : List (List Char × List Char)) (children : List Node)
  | text (s : List Char)
  | comment (s : List Char)

/-- Tag name of a node (`getattr(node, "name", "") or ""`). -/
def tagName : Node → List Char
  | .elem t _ _ => t
  | _ => []

/-- Attribute lookup (`node.get(key)`): the parser keeps the first occurrence
of a duplicated attribute. -/
def getAttr (n : Node) (k : List Char) : Option (List Char) :=
  match n with
  | .elem _ attrs _ => (attrs.find? fun kv => kv.1 = k).map Prod.snd
  | _ => none

/-- Attribute that is present and non-empty (Python truthiness of
`node.get(key)`). -/
def truthyAttr (n : Node) (k : List Char) : Option (List Char) :=
  match getAttr n k with
  | some v => if v = [] then none else some v
  | none => none

mutual

/-- A node together with all its descendants, in document (pre-)order. -/
def allNodesOf : Node → List Node
  | .elem t a cs => .elem t a cs :: allNodesList cs
  | n => [n]

def allNodesList : List Node → List Node
  | [] => []
  | c :: cs => allNodesOf c ++ allNodesList cs

end

/-- All descendants of a node in document order (the search space of
BeautifulSoup `find` / `find_all`, which do not match the node itself). -/
def descendants : Node → List Node
  | .elem _ _ cs => allNodesList cs
  | _ => []

/-- The direct children of a node. -/
def childrenOf : Node → List Node
  | .elem _ _ cs => cs
  | _ => []

mutual

/-- The `NavigableString` descendants, in document order (comments are not
text: `get_text` skips them). -/
def textsOf : Node → List (List Char)
  | .elem _ _ cs => textsList cs
  | .text s => [s]
  | .comment _ => []

def textsList : List Node → List (List Char)
  | [] => []
  | c :: cs => textsOf c ++ textsList cs

end

/-- `node.get_text(sep, strip=True)`: strip every string descendant, drop the
ones that become empty, join with `sep`. -/
def getText (sep : List Char) (n : Node) : List Char :=
  List.intercalate sep (((textsOf n).map pyStrip).filter fun s => s ≠ [])

/-- `find_all` restricted to elements with the given tag. -/
def findAllTag (t : List Char) (n : Node) : List Node :=
  (descendants n).filter fun d => tagName d = t

/-- First descendant satisfying a predicate (`find`). -/
def findFirst (p : Node → Bool) (n : Node) : Option Node :=
  (descendants n).find? p

mutual

/-- BeautifulSoup `tag.string`: the single string child, through single-tag
wrappers. -/
def nodeString : Node → Option (List Char)
  | .elem _ _ cs => nodeStringList cs
  | .text s => some s
  | .comment s => some s

def nodeStringList : List Node → Option (List Char)
  | [c] =>
    match c with
    | .text s => some s
    | .comment s => some s
    | .elem _ _ _ => nodeString c
  | _ => none

end

/-- The multi-valued `class` attribute, re-joined with single spaces
(`" ".join(node.get("class", []))`; the parser splits `class` on
whitespace). -/
def classJoined (n : Node) : List Char :=
  match getAttr n "class".toList with
  | some v => List.intercalate [' '] ((List.splitOnP (fun c => isPyWs c) v).filter fun w => w ≠ [])
  | none => []

/-! ## Sanitizer and boilerplate stripper -/

/-- Control characters removed before parsing
(`re.sub(r"[\x00-\x08\x0b-\x0c\x0e-\x1f]", "", html)`). -/
def isStrippedCtrl (c : Char) : Bool :=
  (c.toNat ≤ 0x08) || (0x0b ≤ c.toNat && c.toNat ≤ 0x0c) || (0x0e ≤ c.toNat && c.toNat ≤ 0x1f)

/-- The pre-parse sanitization of `extract_readable_text`. -/
def sanitize (s : List Char) : List Char := s.filter fun c => !(isStrippedCtrl c)

/-- Tags whose whole subtree is `decompose`d before extraction. -/
def boilerplateTags : List (List Char) :=
  ["script".toList, "style".toList, "noscript".toList, "header".toList,
   "footer".toList, "nav".toList, "aside".toList, "form".toList, "iframe".toList]

mutual

/-- Remove comment nodes and the subtrees of the boilerplate tags
(`c.extract()` on comments, `tag.decompose()` on the tag list). -/
def decomposeBoilerplate : Node → Node
  | .elem t a cs => .elem t a (decomposeList cs)
  | n => n

def decomposeList : List Node → List Node
  | [] => []
  | c :: cs =>
    match c with
    | .comment _ => decomposeList cs
    | .elem t _ _ =>
      if t ∈ boilerplateTags then decomposeList cs
      else decomposeBoilerplate c :: decomposeList cs
    | .text s => .text s :: decomposeList cs

end

/-! ## Text normalizer `_clean_text` -/

/-- `re.sub(r"[ \t]+\n", "\n", text)`: drop horizontal whitespace that sits
directly before a newline. -/
def cleanStep1 : List Char → List Char
  | [] => []
  | c :: rest =>
    let r := cleanStep1 rest
    if isHws c && r.head? = some '\n' then r else c :: r

/-- `re.sub(r"\n{3,}", "\n\n", text)`: cap every newline run at two. -/
def cleanStep2 : List Char → List Char
  | [] => []
  | c :: rest =>
    let r := cleanStep2 rest
    if c = '\n' && "\n\n".toList.isPrefixOf r then r else c :: r

/-- `_clean_text` of the source: the two substitutions, then `str.strip()`. -/
def clean_text (s : List Char) : List Char := pyStrip (cleanStep2 (cleanStep1 s))

/-! ## Candidate scoring -/

/-- The visible-text length `len(node.get_text(" ", strip=True))`. -/
def visTextLen (n : Node) : Nat := (getText [' '] n).length

/-- The anchor-text length
`len(" ".join(a.get_text(" ", strip=True) for a in node.find_all("a")))`. -/
def linkTextLen (n : Node) : Nat :=
  (List.intercalate [' '] ((findAllTag "a".toList n).map (getText [' ']))).length

/-- `_link_density`: anchor-text share of the visible text; empty text counts
as density 1.  Exact rational arithmetic stands in for Python floats. -/
def link_density (n : Node) : ℚ :=
  if getText [' '] n = [] then 1
  else min 1 ((linkTextLen n : ℚ) / (max 1 (visTextLen n) : ℚ))

/-- The positive `id`/`class` hints of `_candidate_score`. -/
def positiveWords : List (List Char) :=
  ["article".toList, "content".toList, "post".toList, "entry".toList,
   "story".toList, "main".toList, "body".toList, "text".toList]

/-- The negative `id`/`class` hints of `_candidate_score`. -/
def negativeWords : List (List Char) :=
  ["comment".toList, "nav".toList, "footer".toList, "header".toList,
   "sidebar".toList, "menu".toList, "advert".toList, "promo".toList,
   "related".toList, "share".toList, "cookie".toList, "social".toList,
   "subscribe".toList]

/-- The lower-cased `f"{classes} {node_id}"` string the hint regexes run on. -/
def identOf (n : Node) : List Char :=
  pyLower (classJoined n ++ ' ' :: ((getAttr n "id".toList).getD []))

/-- `sum(len(p.get_text(" ", strip=True)) for p in node.find_all("p"))`. -/
def paraTextLen (n : Node) : Nat :=
  ((findAllTag "p".toList n).map fun p => (getText [' '] p).length).sum

/-- The number of paragraphs whose trimmed text length is at least 40. -/
def longParaCount (n : Node) : Nat :=
  ((findAllTag "p".toList n).filter fun p => 40 ≤ (getText [' '] p).length).length

/-- `_candidate_score`, line for line: paragraph mass, tag bonus, hint
bonus/penalty, then the link-density multiplier. -/
def candidate_score (n : Node) : ℚ :=
  let score0 : ℚ := (paraTextLen n : ℚ) / 100 + (longParaCount n : ℚ) * 2
  let score1 := if tagName n = "article".toList ∨ tagName n = "main".toList then score0 + 10 else score0
  let score2 := if anyWordIn positiveWords (identOf n) then score1 + 6 else score1
  let score3 := if anyWordIn negativeWords (identOf n) then score2 - 8 else score2
  score3 * max (1/10 : ℚ) (1 - link_density n)

/-- Head of the stably-sorted candidate list: the first pair attaining the
maximal score (`candidates.sort(key=..., reverse=True); candidates[0]`,
Python's sort being stable). -/
def bestCand : List (Node × ℚ) → Option (Node × ℚ)
  | [] => none
  | x :: xs =>
    match bestCand xs with
    | none => some x
    | some y => if x.2 < y.2 then some y else some x

/-- The tags scored in the generic phase of `_best_container`. -/
def candidateTags : List (List Char) :=
  ["article".toList, "main".toList, "section".toList, "div".toList]

/-- `soup.body or soup`. -/
def bodyOrWhole (soup : Node) : Node :=
  (findFirst (fun n => tagName n = "body".toList) soup).getD soup

/-- The scored pairs of the generic phase (`article`, `main`, `section`,
`div` elements in document order). -/
def genericCandidates (soup : Node) : List (Node × ℚ) :=
  ((descendants soup).filter fun n => tagName n ∈ candidateTags).map
    fun t => (t, candidate_score t)

/-- The generic phase of `_best_container`: the stably-best candidate when it
scores ≥ 3, else `soup.body or soup`. -/
def genericBest (soup : Node) : Node :=
  match bestCand (genericCandidates soup) with
  | none => bodyOrWhole soup
  | some (best, bestScore) => if 3 ≤ bestScore then best else bodyOrWhole soup

/-- `soup.find("article") or soup.find("main")`. -/
def semanticCand (soup : Node) : Option Node :=
  match findFirst (fun n => tagName n = "article".toList) soup with
  | some a => some a
  | none => findFirst (fun n => tagName n = "main".toList) soup

/-- `_best_container`: first `<article>` (else first `<main>`) if it scores
≥ 5, otherwise the best generic candidate if it scores ≥ 3, otherwise
`soup.body or soup`. -/
def best_container (soup : Node) : Node :=
  match semanticCand soup with
  | some s => if 5 ≤ candidate_score s then s else genericBest soup
  | none => genericBest soup

/-! ## Image collection -/

/-- Filename patterns of share buttons (`_SKIP_IMAGE_RE`). -/
def skipImageWords : List (List Char) :=
  ["telegram-button".toList, "wa-button".toList, "whatsapp-button".toList,
   "facebook-button".toList, "twitter-button".toList, "share-button".toList]

/-- `.` followed by one of `exts` and then `?`, `#` or end of string, anywhere
in `s`, case-insensitively: the shape of `_IMAGE_EXT_RE` and of the
`\.(svg|ico)(\?|#|$)` check. -/
def dotExtMatch (exts : List (List Char)) : List Char → Bool
  | [] => false
  | c :: rest =>
    (c = '.' && exts.any fun e =>
      ciStarts e rest &&
        (match rest.drop e.length with
         | [] => true
         | d :: _ => d = '?' || d = '#'))
    || dotExtMatch exts rest

/-- Extensions of `_IMAGE_EXT_RE`. -/
def imageExts : List (List Char) :=
  ["jpg".toList, "jpeg".toList, "png".toList, "gif".toList,
   "webp".toList, "bmp".toList, "tiff".toList]

/-- `_normalize_image_url`.  `resolve` stands for `urllib.parse.urljoin`,
which is only invoked when a base URL is supplied — note that every filter
runs before that resolution. -/
def normalize_image_url (raw : List Char) (base : Option (List Char))
    (resolve : List Char → List Char → List Char) : Option (List Char) :=
  let url := pyStrip raw
  if url = [] then none
  else if "data:".toList.isPrefixOf url then none
  else if url.any isPyWs then none
  else
    let url := if "//".toList.isPrefixOf url then "https:".toList ++ url else url
    if anyWordIn skipImageWords (pyLower url) then none
    else if dotExtMatch ["svg".toList, "ico".toList] url then none
    else
      match base with
      | some b => some (resolve b url)
      | none => some url

/-- `_pick_img_source`: `src`/`data-src`/`data-original`/`data-lazy-src`,
else the last candidate of `srcset`/`data-srcset`. -/
def pick_img_source (img : Node) : Option (List Char) :=
  match (((truthyAttr img "src".toList).orElse fun _ => truthyAttr img "data-src".toList).orElse
      fun _ => truthyAttr img "data-original".toList).orElse
      fun _ => truthyAttr img "data-lazy-src".toList with
  | some s => some s
  | none =>
    match (truthyAttr img "srcset".toList).orElse fun _ => truthyAttr img "data-srcset".toList with
    | none => none
    | some ss =>
      let cands := (ss.splitOn ',').filterMap fun part =>
        let p := pyStrip part
        if p = [] then none else some (p.takeWhile fun c => c ≠ ' ')
      cands.getLast?

/-- The width/height reading of `_is_small_image`: a missing or empty
attribute reads as 0 (`int(img.get(k) or 0)`), otherwise Python `int`, with
`none` as the `ValueError` case. -/
def dimAttr (img : Node) (k : List Char) : Option Int :=
  match getAttr img k with
  | none => some 0
  | some v => if v = [] then some 0 else pyInt v

/-- `_is_small_image`: both `width` and `height` must parse to non-zero
integers and one of them must be below 120; a parse failure means "not
small". -/
def is_small_image (img : Node) : Bool :=
  match dimAttr img "width".toList, dimAttr img "height".toList with
  | some w, some h => !(w = 0) && !(h = 0) && (w < 120 || h < 120)
  | _, _ => false

/-- `_dedupe`: first-seen order, via the `seen` set of the source. -/
def dedupeSeen (seen : List (List Char)) : List (List Char) → List (List Char)
  | [] => []
  | u :: us => if u ∈ seen then dedupeSeen seen us else u :: dedupeSeen (u :: seen) us

/-- `_dedupe`. -/
def dedupe (urls : List (List Char)) : List (List Char) := dedupeSeen [] urls

/-- A character the regex `https?://[^\s)]+` may include after the scheme. -/
def urlChar (c : Char) : Bool := !(isPyWs c) && !(c = ')')

/-- Length of the regex match `https?://[^\s)]+` anchored at the start of
`s`, if any. -/
def urlTokenLen (s : List Char) : Option Nat :=
  if "https://".toList.isPrefixOf s then
    let body := (s.drop 8).takeWhile urlChar
    if body = [] then none else some (8 + body.length)
  else if "http://".toList.isPrefixOf s then
    let body := (s.drop 7).takeWhile urlChar
    if body = [] then none else some (7 + body.length)
  else none

/-- `re.findall(r"https?://[^\s)]+", text)`: scan left to right, emit maximal
matches, continue after each match.  The fuel argument (initially the string
length) only bounds the recursion; every step consumes at least one
character. -/
def findUrlsGo : Nat → List Char → List (List Char)
  | 0, _ => []
  | _, [] => []
  | Nat.succ fuel, s@(_ :: rest) =>
    match urlTokenLen s with
    | some k => s.take k :: findUrlsGo fuel (s.drop k)
    | none => findUrlsGo fuel rest

/-- All `https?://...` tokens of a text, in order. -/
def findUrls (s : List Char) : List (List Char) := findUrlsGo s.length s

/-- `_extract_images_from_plain_text`. -/
def extract_images_from_plain_text (t : List Char) : List (List Char) :=
  let urls := (findUrls t).filterMap fun m =>
    match normalize_image_url m none (fun _ u => u) with
    | some norm => if dotExtMatch imageExts norm then some norm else none
    | none => none
  (dedupe urls).take 5

/-- The `add` closure of `_extract_images_from_html`: normalize, then append
if new. -/
def addImageUrl (base : Option (List Char)) (resolve : List Char → List Char → List Char)
    (urls : List (List Char)) (raw : List Char) : List (List Char) :=
  match normalize_image_url raw base resolve with
  | some norm => if norm ∈ urls then urls else urls ++ [norm]
  | none => urls

/-- The three accepted `og:image` property values. -/
def ogImageProps : List (List Char) :=
  ["og:image".toList, "og:image:url".toList, "og:image:secure_url".toList]

/-- The two accepted `twitter:image` name values. -/
def twitterImageNames : List (List Char) :=
  ["twitter:image".toList, "twitter:image:src".toList]

/-- The `og:image` meta pass of `_extract_images_from_html`. -/
def ogImageFold (soup : Node) (base : Option (List Char))
    (resolve : List Char → List Char → List Char)
    (urls0 : List (List Char)) : List (List Char) :=
  ((descendants soup).filter fun n =>
    tagName n = "meta".toList &&
      (match getAttr n "property".toList with
       | some v => ciStarts "og:image".toList v
       | none => false)).foldl
    (fun urls m =>
      if pyLower ((getAttr m "property".toList).getD []) ∈ ogImageProps then
        match truthyAttr m "content".toList with
        | some c => addImageUrl base resolve urls c
        | none => urls
      else urls) urls0

/-- The `twitter:image` meta pass. -/
def twitterImageFold (soup : Node) (base : Option (List Char))
    (resolve : List Char → List Char → List Char)
    (urls0 : List (List Char)) : List (List Char) :=
  ((descendants soup).filter fun n =>
    tagName n = "meta".toList &&
      (match getAttr n "name".toList with
       | some v => ciStarts "twitter:image".toList v
       | none => false)).foldl
    (fun urls m =>
      if pyLower ((getAttr m "name".toList).getD []) ∈ twitterImageNames then
        match truthyAttr m "content".toList with
        | some c => addImageUrl base resolve urls c
        | none => urls
      else urls) urls0

/-- The `<link rel="image_src">` step. -/
def linkImageStep (soup : Node) (base : Option (List Char))
    (resolve : List Char → List Char → List Char)
    (urls0 : List (List Char)) : List (List Char) :=
  match findFirst
      (fun n => tagName n = "link".toList &&
        (match getAttr n "rel".toList with
         | some v => containsSub "image_src".toList (pyLower v)
         | none => false)) soup with
  | some l =>
    match truthyAttr l "href".toList with
    | some h => addImageUrl base resolve urls0 h
    | none => urls0
  | none => urls0

/-- The inline `<img>` pass over the chosen container. -/
def inlineImageFold (container : Node) (base : Option (List Char))
    (resolve : List Char → List Char → List Char)
    (urls0 : List (List Char)) : List (List Char) :=
  (findAllTag "img".toList container).foldl
    (fun urls img =>
      if is_small_image img then urls
      else
        match pick_img_source img with
        | some src => if src = [] then urls else addImageUrl base resolve urls src
        | none => urls) urls0

/-- `_extract_images_from_html`: OG metas, Twitter metas, `link[rel=image_src]`,
then inline images of the container, capped at five. -/
def extract_images_from_html (soup container : Node) (base : Option (List Char))
    (resolve : List Char → List Char → List Char) : List (List Char) :=
  (inlineImageFold container base resolve
    (linkImageStep soup base resolve
      (twitterImageFold soup base resolve
        (ogImageFold soup base resolve [])))).take 5

/-! ## The result record -/

/-- The output value of the engine. -/
structure ArticleContent where
  title : List Char
  byline : Option (List Char)
  text : List Char
  images : List (List Char)
deriving DecidableEq

/-! ## HTML path -/

/-- The element the byline search looks for: any element whose `class`
attribute matches `(byline|author|writer)` case-insensitively. -/
def bylineClassMatch (n : Node) : Bool :=
  match getAttr n "class".toList with
  | some v => anyWordIn ["byline".toList, "author".toList, "writer".toList] (pyLower v)
  | none => false

/-- The tags visited by the block assembler. -/
def blockTags : List (List Char) :=
  ["p".toList, "h2".toList, "h3".toList, "li".toList, "blockquote".toList]

/-- The kept text blocks of the container: skip empty text, keep headings,
keep others only at trimmed length ≥ 20. -/
def blocksOf (container : Node) : List (List Char) :=
  ((descendants container).filter fun n => tagName n ∈ blockTags).filterMap fun el =>
    let txt := getText [' '] el
    if txt = [] then none
    else if tagName el = "h2".toList ∨ tagName el = "h3".toList then some txt
    else if txt.length < 20 then none
    else some txt

/-- The assembled body before normalization: joined blocks, or the whole
container text when fewer than three blocks survive. -/
def assembledBody (container : Node) : List Char :=
  let blocks := blocksOf container
  if blocks.length < 3 then getText ['\n'] container
  else List.intercalate "\n\n".toList blocks

/-- First `og:title` meta (by `property`, else by `name`). -/
def ogTitleMeta (soup : Node) : Option Node :=
  match findFirst (fun n => tagName n = "meta".toList &&
      getAttr n "property".toList = some "og:title".toList) soup with
  | some m => some m
  | none => findFirst (fun n => tagName n = "meta".toList &&
      getAttr n "name".toList = some "og:title".toList) soup

/-- First description meta (`og:description` by property, else `description`
by name). -/
def ogDescMeta (soup : Node) : Option Node :=
  match findFirst (fun n => tagName n = "meta".toList &&
      getAttr n "property".toList = some "og:description".toList) soup with
  | some m => some m
  | none => findFirst (fun n => tagName n = "meta".toList &&
      getAttr n "name".toList = some "description".toList) soup

/-- The title resolution of the HTML path, as coded: set from `og:title`,
overwrite from the first `<h1>` with non-empty stripped text, fall back to
`<title>` only when still empty. -/
def resolveTitle (soup : Node) : List Char :=
  let title0 : List Char :=
    match ogTitleMeta soup with
    | some m =>
      match truthyAttr m "content".toList with
      | some c => pyStrip c
      | none => []
    | none => []
  let title1 : List Char :=
    match findFirst (fun n => tagName n = "h1".toList) soup with
    | some h => let s := getText [] h; if s = [] then title0 else s
    | none => title0
  if title1 = [] then
    match findFirst (fun n => tagName n = "title".toList) soup with
    | some t =>
      match nodeString t with
      | some s => pyStrip s
      | none => title1
    | none => title1
  else title1

/-- The byline resolution: matching element in the container, else in the
whole document; empty text means absent. -/
def resolveByline (soup container : Node) : Option (List Char) :=
  let found :=
    match findFirst bylineClassMatch container with
    | some b => some b
    | none => findFirst bylineClassMatch soup
  match found with
  | some b => let t := getText [' '] b; if t = [] then none else some t
  | none => none

/-- The HTML branch of `extract_readable_text`, lines 303–361 of
`article.py`, over the parsed tree. -/
def extract_from_soup (soup0 : Node) (base : Option (List Char))
    (resolve : List Char → List Char → List Char) : ArticleContent :=
  let soup := decomposeBoilerplate soup0
  let title := resolveTitle soup
  let container := best_container soup
  let images := extract_images_from_html soup container base resolve
  let byline := resolveByline soup container
  let text1 := clean_text (assembledBody container)
  let text :=
    if text1.length < 120 then
      match ogDescMeta soup with
      | some m =>
        match truthyAttr m "content".toList with
        | some c =>
          let desc := pyStrip c
          if text1.length < desc.length then desc else text1
        | none => text1
      | none => text1
    else text1
  ⟨if title = [] then "(untitled)".toList else title, byline, text, images⟩

/-! ## Plain-text path -/

/-- The metadata-line markers removed by the plain-text path. -/
def metaMarkers : List (List Char) :=
  ["url source".toList, "published time".toList, "markdown content".toList]

/-- After a case-insensitive marker prefix: optional whitespace, then a
colon. -/
def colonAfter (ws : Char → Bool) (t : List Char) : Bool :=
  match t.dropWhile ws with
  | ':' :: _ => true
  | _ => false

/-- Matcher for `marker` followed by `\s*:` at the head of `t`. -/
def matchSeq (ws : Char → Bool) : List Char → List Char → Bool
  | [], t => colonAfter ws t
  | _ :: _, [] => false
  | p :: ps, c :: cs => ciEq p c && matchSeq ws ps cs

/-- `re.match(r"^\s*(url source|published time|markdown content)\s*:", s, re.I)`
as a Boolean, with the whitespace class a parameter (`isPyWs` is Python's
`\s`). -/
def metaLineMatch (ws : Char → Bool) (s : List Char) : Bool :=
  metaMarkers.any fun m => matchSeq ws m (s.dropWhile ws)

/-- The filter predicate on body lines of the plain-text path. -/
def isMetaLine (s : List Char) : Bool := metaLineMatch isPyWs s

/-- `re.match(r"^\s*title\s*:\s*(.+)$", ln, re.I)`, returning the stripped
capture.  For lines without line-break characters (every line the source
feeds in, since `splitlines` removed them) this is exact: the greedy capture
runs to the end of the line, and stripping it equals stripping everything
after the colon. -/
def titleCapture (ln : List Char) : Option (List Char) :=
  if ciStarts "title".toList (ln.dropWhile isPyWs) then
    match ((ln.dropWhile isPyWs).drop 5).dropWhile isPyWs with
    | ':' :: rest => if rest = [] then none else some (pyStrip rest)
    | _ => none
  else none

/-- The title scan of the plain-text path: first match among the first eight
lines, with its index. -/
def scanTitleGo : List (List Char) → Nat → Nat → Option (Nat × List Char)
  | [], _, _ => none
  | _, 0, _ => none
  | ln :: rest, Nat.succ fuel, idx =>
    match titleCapture ln with
    | some cap => some (idx, cap)
    | none => scanTitleGo rest fuel (idx + 1)

/-- Scan `lines[:8]` for the first `Title:` line. -/
def scanTitle (lines : List (List Char)) : Option (Nat × List Char) :=
  scanTitleGo lines 8 0

/-- The plain-text path from the point where the (already right-stripped)
line list exists: title scan with blanking, metadata-line filter, join,
normalize, image scan. -/
def extract_plain_from_lines (lines : List (List Char)) : ArticleContent :=
  let scanned :=
    match scanTitle lines with
    | some (i, cap) =>
      ((if cap = [] then "(untitled)".toList else cap), lines.set i [])
    | none => ("(untitled)".toList, lines)
  let filtered := scanned.2.filter fun ln => !(isMetaLine ln)
  let ftext := List.intercalate ['\n'] filtered
  ⟨scanned.1, none, clean_text ftext, extract_images_from_plain_text ftext⟩

/-- The plain-text branch of `extract_readable_text` on the sanitized input:
split lines, right-strip each, then process. -/
def extract_plain (s : List Char) : ArticleContent :=
  extract_plain_from_lines ((pySplitlines s).map pyRstrip)

/-- `extract_readable_text`: sanitize, classify, dispatch.  `parse` is the
external HTML parser (`BeautifulSoup(·, "html.parser")`), `resolve` the
external `urljoin`. -/
def extract_readable_text (html : List Char) (base : Option (List Char))
    (parse : List Char → Node) (resolve : List Char → List Char → List Char) :
    ArticleContent :=
  let sanitized := sanitize html
  if !(sanitized.contains '<') && !(sanitized.contains '>') then
    extract_plain sanitized
  else
    extract_from_soup (parse sanitized) base resolve

/-! ## Spec-side restatements

Definitions transcribed from the specification's wording, to be compared
with the source-side definitions above. -/

/-- Spec-side link density: `min(1, anchor-text length / total-text length)`,
with density 1 for an element with empty visible text. -/
def linkDensitySpec (n : Node) : ℚ :=
  let total := (getText [' '] n).length
  if total = 0 then 1
  else
    min 1 (((List.intercalate [' '] ((findAllTag "a".toList n).map (getText [' ']))).length : ℚ)
      / (total : ℚ))

/-- Spec-side candidate score, written as the single formula of the claim:
paragraph mass over 100, plus twice the long-paragraph count, plus the tag
bonus, plus the positive hint bonus, minus the negative hint penalty, all
times `max(0.1, 1 − linkDensity)`. -/
def candidateScoreSpec (n : Node) : ℚ :=
  ((((findAllTag "p".toList n).map fun p => ((getText [' '] p).length : ℚ)).sum / 100
      + 2 * (((findAllTag "p".toList n).filter fun p => 40 ≤ (getText [' '] p).length).length : ℚ)
      + (if tagName n = "article".toList ∨ tagName n = "main".toList then 10 else 0)
      + (if anyWordIn positiveWords (identOf n) then 6 else 0)
      - (if anyWordIn negativeWords (identOf n) then 8 else 0))
    * max (1/10 : ℚ) (1 - linkDensitySpec n))

/-- Spec-side container choice (amended claim): the document's first
`<article>` (else, if none, its first `<main>`) when it scores ≥ 5; otherwise
the highest-scoring candidate — earliest in document order on ties, which is
`List.argmax` — when it scores ≥ 3; otherwise `<body>` or the whole
document. -/
def bestContainerSpec (soup : Node) : Node :=
  let bodyOrSoup := (findFirst (fun n => tagName n = "body".toList) soup).getD soup
  let generic :=
    match ((descendants soup).filter fun n => tagName n ∈ candidateTags).argmax candidate_score with
    | none => bodyOrSoup
    | some best => if 3 ≤ candidate_score best then best else bodyOrSoup
  match
    (match findFirst (fun n => tagName n = "article".toList) soup with
     | some a => some a
     | none => findFirst (fun n => tagName n = "main".toList) soup) with
  | some s => if 5 ≤ candidate_score s then s else generic
  | none => generic

/-- Spec-side block selection: headings are kept (when they have any text at
all to keep), other visited elements only at trimmed length ≥ 20. -/
def blocksSpec (container : Node) : List (List Char) :=
  ((descendants container).filter fun n => tagName n ∈ blockTags).filterMap fun el =>
    let txt := getText [' '] el
    if tagName el = "h2".toList ∨ tagName el = "h3".toList then
      if txt = [] then none else some txt
    else if 20 ≤ txt.length then some txt else none

/-- A URL the image invariants of the specification allow: no `data:` scheme,
no share-button filename pattern, no `.svg`/`.ico` extension before a
query/fragment. -/
def goodImageUrl (u : List Char) : Bool :=
  !("data:".toList.isPrefixOf u) && !(anyWordIn skipImageWords (pyLower u))
    && !(dotExtMatch ["svg".toList, "ico".toList] u)

/-! ## Normalization predicates (claim C2) -/

/-- No horizontal whitespace directly before a newline: no line of `s` has
trailing spaces or tabs (the final line is covered by `strippedOuter`). -/
def noTrailBeforeNl : List Char → Bool
  | c :: d :: rest => !(isHws c && d = '\n') && noTrailBeforeNl (d :: rest)
  | _ => true

/-- No three consecutive newlines, so at most one blank line in a row. -/
def noTripleNl : List Char → Bool
  | a :: b :: c :: rest => !(a = '\n' && b = '\n' && c = '\n') && noTripleNl (b :: c :: rest)
  | _ => true

/-- Neither end of the text is whitespace. -/
def strippedOuter (s : List Char) : Bool :=
  (match s.head? with
   | some c => !isPyWs c
   | none => true) &&
  (match s.getLast? with
   | some c => !isPyWs c
   | none => true)

/-- The full normalization invariant claimed for `ArticleContent.text`. -/
def normalizedText (s : List Char) : Bool :=
  noTrailBeforeNl s && noTripleNl s && strippedOuter s

/-! ## Line-start scan predicates (claim C7) -/

/-- The first characters of `m` never case-fold to a newline (true of all
three metadata markers; rules out degenerate patterns in the scan lemmas). -/
def noNlCI (m : List Char) : Bool := m.all fun p => !(p.toLower = '\n')

/-- No metadata-marker match directly after any newline of `s`. -/
def noMetaAfterNl : List Char → Bool
  | [] => true
  | c :: rest => (if c = '\n' then !(metaLineMatch lws rest) else true) && noMetaAfterNl rest

/-- No line of `s` (at the start of the text or after a newline) matches
`^\s*(url source|published time|markdown content)\s*:` — the whitespace class
restricted to within-line whitespace, which on the engine's texts (whose only
line break is `'\n'`) is exactly the Python regex on each line. -/
def noMetaLineStart (s : List Char) : Bool :=
  !(metaLineMatch lws s) && noMetaAfterNl s

/-- No line-break characters inside (true of every `splitlines` output). -/
def breakFree (s : List Char) : Bool := s.all fun c => !(isBreakChar c)

/-! ## Small-image pruning (claim C8) -/

mutual

/-- Remove the `<img>` elements that `_is_small_image` skips. -/
def dropSmallImgs : Node → Node
  | .elem t a cs => .elem t a (dropSmallList cs)
  | n => n

def dropSmallList : List Node → List Node
  | [] => []
  | c :: cs =>
    match c with
    | .elem t _ _ =>
      if t = "img".toList && is_small_image c then dropSmallList cs
      else dropSmallImgs c :: dropSmallList cs
    | n => n :: dropSmallList cs

end

mutual

/-- Every `<img>` at or below the node is childless, as `html.parser`
guarantees for the void `img` element. -/
def imgsChildless : Node → Bool
  | .elem t _ cs => (if t = "img".toList then cs.isEmpty else true) && imgChildlessList cs
  | _ => true

def imgChildlessList : List Node → Bool
  | [] => true
  | c :: cs => imgsChildless c && imgChildlessList cs

end

/-! ## Example documents

Concrete inputs used by counterexamples and witnesses.  `elN`/`textN` build
parsed-tree nodes from string literals. -/

/-- Element node from string literals. -/
def elN (t : String) (attrs : List (String × String)) (cs : List Node) : Node :=
  .elem t.toList (attrs.map fun kv => (kv.1.toList, kv.2.toList)) cs

/-- Text node from a string literal. -/
def textN (s : String) : Node := .text s.toList

/-- A resolver standing in for `urllib.parse.urljoin` on the only case the
examples exercise.  Modelled from the spec: §4.4 resolves the possibly
relative URL against the base "per standard URL-resolution rules"
(`urljoin` itself is stdlib code outside `src/`); for a relative path
reference against a base whose path ends in `/`, RFC 3986 merges by
replacing everything after the base's last slash, i.e. appends. -/
def urljoinDirRel (b u : List Char) : List Char :=
  (b.reverse.dropWhile fun c => !(c = '/')).reverse ++ u

/-- Trivial resolver for runs that never resolve (no base URL). -/
def noResolve : List Char → List Char → List Char := fun _ u => u

/-- Trivial parser argument for runs that stay on the plain-text path. -/
def noParse : List Char → Node := fun _ => .text []

/-- Document with both a non-empty `og:title` meta and a non-empty `<h1>`
(claim C1). -/
def docC1 : Node :=
  elN "[document]" [] [
    elN "html" [] [
      elN "head" [] [elN "meta" [("property", "og:title"), ("content", "OG Title")] []],
      elN "body" [] [elN "h1" [] [textN "H1 Title"]]
    ]
  ]

/-- Document whose meta description carries trailing whitespace before an
inner newline (claim C2): the body is empty, so the thin-content fallback
replaces it with the description. -/
def docC2 : Node :=
  elN "[document]" [] [
    elN "html" [] [
      elN "head" [] [elN "meta" [("property", "og:description"), ("content", "A   \nB")] []],
      elN "body" [] []
    ]
  ]

/-- Document for claim C4: a relative `og:image` URL that resolves, against a
base URL containing a share-button directory, into a URL matching the
share-button pattern. -/
def docC4 : Node :=
  elN "[document]" [] [
    elN "html" [] [
      elN "head" [] [elN "meta" [("property", "og:image"), ("content", "y.jpg")] []],
      elN "body" [] []
    ]
  ]

/-- The first `<article>` of the C5 document: empty, scoring well below 5. -/
def art1C5 : Node := elN "article" [("id", "a1")] []

/-- The second `<article>` of the C5 document: scores 12.6 ≥ 5. -/
def art2C5 : Node :=
  elN "article" [("id", "a2")] [
    elN "p" [] [textN "aaaaaaaaaaaaaaaaaaaaaaaaaaaaaaaaaaaaaaaaaaaaaaaaaaaaaaaaaaaa"]]

/-- The `<div>` of the C5 document: scores 15, higher than both articles. -/
def divC5 : Node :=
  elN "div" [("id", "d1"), ("class", "content")] [
    elN "p" [] [textN "bbbbbbbbbbbbbbbbbbbbbbbbbbbbbbbbbbbbbbbbbbbbbbbbbbbbbbbbbbbbbbbbbbbbbbbbbbbbbbbbbbbbbbbbbbbbbbbbbbbb"],
    elN "p" [] [textN "cccccccccccccccccccccccccccccccccccccccccccccccccccccccccccccccccccccccccccccccccccccccccccccccccccc"],
    elN "p" [] [textN "dddddddddddddddddddddddddddddddddddddddddddddddddddddddddddddddddddddddddddddddddddddddddddddddddddd"]]

/-- Document for claim C5: its first `<article>` fails the ≥ 5 fast path, its
second `<article>` scores ≥ 5, and a `<div>` outscores both. -/
def docC5 : Node :=
  elN "[document]" [] [elN "html" [] [elN "body" [] [art1C5, art2C5, divC5]]]

/-- The image of the C8 document: `width="50"` and no `height`. -/
def imgC8 : Node := elN "img" [("width", "50"), ("src", "pic.jpg")] []

/-- Document for claim C8: an `<img>` with a declared width below 120 but no
height attribute. -/
def docC8 : Node :=
  elN "[document]" [] [elN "html" [] [elN "body" [] [imgC8]]]

/-- A small HTML document for witnesses on the HTML path: one container with
three long paragraphs. -/
def docWitness : Node :=
  elN "[document]" [] [
    elN "html" [] [
      elN "body" [] [
        elN "article" [] [
          elN "p" [] [textN "First paragraph, long enough to be kept by the assembler."],
          elN "p" [] [textN "Second paragraph, long enough to be kept as well here."],
          elN "p" [] [textN "Third paragraph, also long enough to be kept in the body."],
          elN "img" [("width", "50"), ("height", "50"), ("src", "small.jpg")] [],
          elN "img" [("src", "cover.jpg")] []
        ]
      ]
    ]
  ]

/-- Line list for the C10 witness: the first line matches the title pattern
with a capture that trims to empty, the second is a well-formed title line. -/
def linesC10 : List (List Char) :=
  ["Title: ".toList, "Title: Real Title".toList, "Body text here, kept.".toList]

/-! # Theorems -/

/-! ## Claim C3 — totality and the empty input

The Lean embedding is total by construction, matching the engine's
never-raise design; the concrete content of the claim is the empty-string
result, which the plain-text branch computes for any parser and resolver. -/

/-- C3: the empty input takes the plain-text path and yields exactly
`title = "(untitled)"`, `byline = None`, `text = ""`, `images = []`,
independently of the external parser and URL resolver. -/
theorem extract_readable_text_empty (base : Option (List Char))
    (parse : List Char → Node) (resolve : List Char → List Char → List Char) :
    extract_readable_text [] base parse resolve =
      ⟨"(untitled)".toList, none, [], []⟩ := rfl

/-! ## Claim C1 — title priority

The source comment announces "prefer OG title, then h1, then `<title>`", and
the claim and specification say the same; but the `h1` branch of the code
lacks the `if not title` guard the `<title>` branch has, so a non-empty
`<h1>` overwrites the `og:title` value.  On `docC1` the engine returns the
`<h1>` text although a non-empty `og:title` meta is present. -/

/-- C1 (failing run): on a document with `og:title` content `"OG Title"` and
an `<h1>` reading `"H1 Title"`, the returned title is the `<h1>` text, not
the OG title the claim promises. -/
theorem title_h1_overrides_og :
    (extract_from_soup docC1 none noResolve).title = "H1 Title".toList ∧
    (ogTitleMeta (decomposeBoilerplate docC1)).bind
        (fun m => truthyAttr m "content".toList) = some "OG Title".toList := by
  constructor
  · decide
  · decide

/-! ## Claim C10 — empty-capture title line (scan stage)

The claim describes the loop at `article.py:283–291` over the (already
right-stripped) line list.  Note that on the full plain-text path the
premise is unreachable: each line is `rstrip`ped first, so a matching line's
capture always trims non-empty; the loop itself, however, behaves exactly as
claimed on any line list satisfying the premise. -/

/-- A marker match fails when the heads do not case-fold together. -/
theorem matchSeq_head_ne (ws : Char → Bool) (p c : Char) (ps cs : List Char)
    (h : (p.toLower == c.toLower) = false) :
    matchSeq ws (p :: ps) (c :: cs) = false := by
  unfold matchSeq ciEq
  rw [h]
  rfl

/-- A line that matches the title pattern cannot match the metadata-line
pattern: after the common whitespace prefix one starts `title`, the others
start `url source`/`published time`/`markdown content`. -/
theorem titleCapture_not_metaLine (ln : List Char) (cap : List Char)
    (h : titleCapture ln = some cap) : isMetaLine ln = false := by
  unfold titleCapture at h
  cases hu : ln.dropWhile isPyWs with
  | nil =>
    rw [hu] at h
    rw [show ciStarts "title".toList ([] : List Char) = false from rfl] at h
    simp at h
  | cons c cs =>
    rw [hu] at h
    by_cases hc : ciStarts "title".toList (c :: cs) = true
    case neg =>
      rw [if_neg hc] at h
      simp at h
    case pos =>
      have hhead : ('t'.toLower == c.toLower) = true := by
        rw [show "title".toList = 't' :: "itle".toList from rfl] at hc
        unfold ciStarts ciEq at hc
        simp only [Bool.and_eq_true] at hc
        exact hc.1
      have hct : c.toLower = 't' := by
        have h6 : 't'.toLower = c.toLower := eq_of_beq hhead
        rw [show 't'.toLower = 't' from rfl] at h6
        exact h6.symm
      have hA : matchSeq isPyWs "url source".toList (c :: cs) = false := by
        rw [show "url source".toList = 'u' :: "rl source".toList from rfl]
        exact matchSeq_head_ne _ _ _ _ _ (by rw [show 'u'.toLower = 'u' from rfl, hct]; rfl)
      have hB : matchSeq isPyWs "published time".toList (c :: cs) = false := by
        rw [show "published time".toList = 'p' :: "ublished time".toList from rfl]
        exact matchSeq_head_ne _ _ _ _ _ (by rw [show 'p'.toLower = 'p' from rfl, hct]; rfl)
      have hC : matchSeq isPyWs "markdown content".toList (c :: cs) = false := by
        rw [show "markdown content".toList = 'm' :: "arkdown content".toList from rfl]
        exact matchSeq_head_ne _ _ _ _ _ (by rw [show 'm'.toLower = 'm' from rfl, hct]; rfl)
      unfold isMetaLine metaLineMatch
      rw [hu]
      simp only [metaMarkers, List.any_cons, List.any_nil, Bool.or_eq_false_iff,
        Bool.or_self]
      exact ⟨hA, hB, hC, trivial⟩

/-- C10: when the first matching `Title:` line among the first eight has a
capture that trims to empty, the title stays `"(untitled)"`, that line is
still blanked and scanning stops, and any later line matching the title
pattern survives into the filtered body (it is neither used as the title nor
removed). -/
theorem plain_scan_empty_capture (lines : List (List Char)) (i : Nat)
    (hscan : scanTitle lines = some (i, [])) :
    (extract_plain_from_lines lines).title = "(untitled)".toList ∧
    (extract_plain_from_lines lines).text =
      clean_text (List.intercalate ['\n']
        ((lines.set i []).filter fun ln => !(isMetaLine ln))) ∧
    ∀ j ln cap, i < j → lines.get? j = some ln → titleCapture ln = some cap →
      ln ∈ (lines.set i []).filter fun ln => !(isMetaLine ln) := by
  refine ⟨?_, ?_, ?_⟩
  · unfold extract_plain_from_lines
    rw [hscan]
    simp
  · unfold extract_plain_from_lines
    rw [hscan]
  · intro j ln cap hij hget hcap
    have hne : i ≠ j := Nat.ne_of_lt hij
    have hget' : (lines.set i []).get? j = some ln := by
      rw [List.get?_set_ne _ _ hne]
      exact hget
    have hmem : ln ∈ lines.set i [] := List.get?_mem hget'
    refine List.mem_filter.mpr ⟨hmem, ?_⟩
    rw [titleCapture_not_metaLine ln cap hcap]
    rfl

/-- C10 witness: the concrete `linesC10` satisfy the premise with `i = 0`. -/
theorem plain_scan_empty_capture_witness :
    (extract_plain_from_lines linesC10).title = "(untitled)".toList ∧
    (extract_plain_from_lines linesC10).text =
      clean_text (List.intercalate ['\n']
        ((linesC10.set 0 []).filter fun ln => !(isMetaLine ln))) ∧
    ∀ j ln cap, 0 < j → linesC10.get? j = some ln → titleCapture ln = some cap →
      ln ∈ (linesC10.set 0 []).filter fun ln => !(isMetaLine ln) :=
  plain_scan_empty_capture linesC10 0 (by decide)

/-! ## Claim C6 — the candidate score formula -/

/-- The two link-density definitions agree: for non-empty text the
`max(1, len)` guard of the code is the identity. -/
theorem link_density_eq_spec (n : Node) : link_density n = linkDensitySpec n := by
  unfold link_density linkDensitySpec
  by_cases h : getText [' '] n = []
  · have hl : (getText [' '] n).length = 0 := by rw [h]; rfl
    rw [if_pos h, if_pos hl]
  · have hl : ¬((getText [' '] n).length = 0) := fun hh => h (List.length_eq_zero.mp hh)
    rw [if_neg h, if_neg hl]
    unfold linkTextLen visTextLen
    have h1 : (1 : ℚ) ≤ ((getText [' '] n).length : ℚ) := by
      exact_mod_cast Nat.one_le_iff_ne_zero.mpr hl
    rw [max_eq_right h1]

/-- C6: `_candidate_score` computes exactly the claimed formula —
`paragraph-mass/100 + 2·long-paragraph-count + tag bonus + positive hint −
negative hint, times max(0.1, 1 − link density)`. -/
theorem candidate_score_eq_spec (n : Node) : candidate_score n = candidateScoreSpec n := by
  simp only [candidate_score, candidateScoreSpec, link_density_eq_spec,
    paraTextLen, longParaCount]
  push_cast
  rw [List.map_map]
  simp only [Function.comp_def]
  split_ifs <;> ring

/-! ## Claim C9 — block assembly and the whole-container fallback -/

/-- The pointwise block rule, abstracted: keeping a heading whenever it has
text is the same decision tree as skipping empty text first. -/
theorem block_rule_eq (t : List Char) (P : Prop) [Decidable P] :
    (if t = [] then none
     else if P then some t
     else if t.length < 20 then none else some t) =
    (if P then (if t = [] then none else some t)
     else if 20 ≤ t.length then some t else none) := by
  by_cases ht : t = []
  · subst ht
    simp
  · by_cases hp : P
    · simp [ht, hp]
    · by_cases hl : t.length < 20
      · simp [ht, hp, hl, Nat.not_le_of_lt hl]
      · simp [ht, hp, hl, Nat.le_of_not_lt hl]

/-- C9: the kept blocks are exactly the spec's selection (headings kept
whenever they have text, other elements at trimmed length ≥ 20), the body is
the blocks joined by blank lines or, below three blocks, the container's
newline-joined text — which is non-empty whenever the container has any
text. -/
theorem blocks_match_spec (container : Node) :
    blocksOf container = blocksSpec container ∧
    assembledBody container =
      (if (blocksSpec container).length < 3 then getText ['\n'] container
       else List.intercalate "\n\n".toList (blocksSpec container)) ∧
    ((blocksOf container).length < 3 → getText ['\n'] container ≠ [] →
      assembledBody container ≠ []) := by
  have hbl : blocksOf container = blocksSpec container := by
    unfold blocksOf blocksSpec
    apply List.filterMap_congr
    intro el _
    exact block_rule_eq (getText [' '] el) _
  refine ⟨hbl, ?_, ?_⟩
  · unfold assembledBody
    rw [hbl]
  · intro h3 hne
    unfold assembledBody
    rw [if_pos h3]
    exact hne

/-- C9 witness: a container with fewer than three blocks but non-empty text
yields a non-empty body. -/
theorem blocks_match_spec_witness :
    assembledBody (elN "div" [] [textN "short text here"]) ≠ [] :=
  (blocks_match_spec (elN "div" [] [textN "short text here"])).2.2 (by decide) (by decide)

/-! ## Claim C5 — container selection

The fast path checks only `soup.find("article") or soup.find("main")` — the
*first* such element — so a later `<article>` scoring ≥ 5 is not "used
directly": it goes through the generic phase, where a higher-scoring `<div>`
can win.  `docC5` exhibits this.  The amended statement (first article/main
only, then stable argmax ≥ 3, then body) is proved as
`best_container_eq_spec`. -/

/-- The stable-sort-head model agrees with `List.argmax` (first maximum). -/
theorem bestCand_eq_argmax (l : List (Node × ℚ)) :
    bestCand l = l.argmax Prod.snd := by
  induction l with
  | nil => rfl
  | cons x xs ih =>
    rw [List.argmax_cons]
    unfold bestCand
    rw [ih]
    cases xs.argmax Prod.snd with
    | none => rfl
    | some y => rfl

/-- `argmax` over score pairs is `argmax` over scores. -/
theorem argmax_pair_map (f : Node → ℚ) (l : List Node) :
    (l.map fun t => (t, f t)).argmax Prod.snd = (l.argmax f).map fun t => (t, f t) := by
  induction l with
  | nil => rfl
  | cons x xs ih =>
    rw [List.map_cons, List.argmax_cons, List.argmax_cons, ih]
    cases xs.argmax f with
    | none => rfl
    | some c =>
      by_cases hlt : f x < f c
      · simp [hlt]
      · simp [hlt]

/-- C5 (amended): the container is the first `<article>` (or, lacking one,
the first `<main>`) when that element scores ≥ 5; otherwise the
highest-scoring generic candidate — earliest on ties — when it scores ≥ 3;
otherwise `<body>` or the whole document. -/
theorem best_container_eq_spec (soup : Node) :
    best_container soup = bestContainerSpec soup := by
  unfold best_container bestContainerSpec genericBest semanticCand genericCandidates bodyOrWhole
  rw [bestCand_eq_argmax, argmax_pair_map]
  cases ((descendants soup).filter fun n => tagName n ∈ candidateTags).argmax candidate_score with
  | none => rfl
  | some b => rfl

/-- Evaluation: the empty first article scores 1 (tag bonus 10, link-density
floor 0.1). -/
theorem candidate_score_art1C5 : candidate_score art1C5 = 1 := by
  have hld : link_density art1C5 = 1 := by
    unfold link_density
    rw [if_pos (show getText [' '] art1C5 = [] from rfl)]
  simp only [candidate_score, hld]
  rw [show paraTextLen art1C5 = 0 from rfl]
  rw [show longParaCount art1C5 = 0 from rfl]
  rw [if_pos (show tagName art1C5 = "article".toList ∨ tagName art1C5 = "main".toList from
    Or.inl rfl)]
  rw [if_neg (show ¬(anyWordIn positiveWords (identOf art1C5) = true) from by decide)]
  rw [if_neg (show ¬(anyWordIn negativeWords (identOf art1C5) = true) from by decide)]
  norm_num

/-- Evaluation: the second article scores 12.6 = 63/5. -/
theorem candidate_score_art2C5 : candidate_score art2C5 = 63 / 5 := by
  have hld : link_density art2C5 = 0 := by
    unfold link_density
    rw [if_neg (show ¬(getText [' '] art2C5 = []) from by decide)]
    rw [show linkTextLen art2C5 = 0 from rfl]
    rw [show visTextLen art2C5 = 60 from rfl]
    norm_num
  simp only [candidate_score, hld]
  rw [show paraTextLen art2C5 = 60 from rfl]
  rw [show longParaCount art2C5 = 1 from rfl]
  rw [if_pos (show tagName art2C5 = "article".toList ∨ tagName art2C5 = "main".toList from
    Or.inl rfl)]
  rw [if_neg (show ¬(anyWordIn positiveWords (identOf art2C5) = true) from by decide)]
  rw [if_neg (show ¬(anyWordIn negativeWords (identOf art2C5) = true) from by decide)]
  norm_num

/-- Evaluation: the content div scores 15. -/
theorem candidate_score_divC5 : candidate_score divC5 = 15 := by
  have hld : link_density divC5 = 0 := by
    unfold link_density
    rw [if_neg (show ¬(getText [' '] divC5 = []) from by decide)]
    rw [show linkTextLen divC5 = 0 from rfl]
    rw [show visTextLen divC5 = 302 from rfl]
    norm_num
  simp only [candidate_score, hld]
  rw [show paraTextLen divC5 = 300 from rfl]
  rw [show longParaCount divC5 = 3 from rfl]
  rw [if_neg (show ¬(tagName divC5 = "article".toList ∨ tagName divC5 = "main".toList) from
    by decide)]
  rw [if_pos (show anyWordIn positiveWords (identOf divC5) = true from by decide)]
  rw [if_neg (show ¬(anyWordIn negativeWords (identOf divC5) = true) from by decide)]
  norm_num

/-- C5 counterexample: in `docC5` an `<article>` element (`art2C5`, id
`"a2"`) exists with candidate score 12.6 ≥ 5, yet `_best_container` does not
use it: the chosen container is the div with id `"d1"`. -/
theorem best_container_not_direct :
    art2C5 ∈ descendants docC5 ∧
    tagName art2C5 = "article".toList ∧
    5 ≤ candidate_score art2C5 ∧
    getAttr art2C5 "id".toList = some "a2".toList ∧
    getAttr (best_container docC5) "id".toList = some "d1".toList := by
  have hsem : semanticCand docC5 = some art1C5 := rfl
  have hfil : ((descendants docC5).filter fun n => tagName n ∈ candidateTags) =
      [art1C5, art2C5, divC5] := rfl
  have hcands : genericCandidates docC5 =
      [(art1C5, candidate_score art1C5), (art2C5, candidate_score art2C5),
       (divC5, candidate_score divC5)] := rfl
  have hcmp23 : candidate_score art2C5 < candidate_score divC5 := by
    rw [candidate_score_art2C5, candidate_score_divC5]; norm_num
  have hcmp13 : candidate_score art1C5 < candidate_score divC5 := by
    rw [candidate_score_art1C5, candidate_score_divC5]; norm_num
  have hb3 : bestCand [(divC5, candidate_score divC5)] =
      some (divC5, candidate_score divC5) := rfl
  have hb2 : bestCand [(art2C5, candidate_score art2C5), (divC5, candidate_score divC5)] =
      some (divC5, candidate_score divC5) := by
    unfold bestCand
    rw [hb3]
    simp [hcmp23]
  have hb1 : bestCand (genericCandidates docC5) = some (divC5, candidate_score divC5) := by
    rw [hcands]
    unfold bestCand
    rw [hb2]
    simp [hcmp13]
  have hgb : genericBest docC5 = divC5 := by
    unfold genericBest
    rw [hb1]
    simp [show (3 : ℚ) ≤ candidate_score divC5 by rw [candidate_score_divC5]; norm_num]
  have hbc : best_container docC5 = divC5 := by
    unfold best_container
    rw [hsem]
    simp only [show ¬((5 : ℚ) ≤ candidate_score art1C5) by
      rw [candidate_score_art1C5]; norm_num, if_neg, not_false_eq_true]
    exact hgb
  refine ⟨?_, rfl, ?_, rfl, ?_⟩
  · refine List.mem_of_mem_filter (p := fun n => decide (tagName n ∈ candidateTags)) ?_
    rw [hfil]
    exact List.mem_cons_of_mem _ (List.mem_cons_self _ _)
  · rw [candidate_score_art2C5]
    norm_num
  · rw [hbc]
    exact rfl

/-! ## Claim C4 — image list invariants

Deduplication and the cap hold unconditionally.  The `data:`/share-button/
`.svg`/`.ico` filters, however, run on the raw URL *before* `urljoin`, so a
base URL can reintroduce a filtered pattern on the resolved URL; they are
guaranteed on the final URL only when no base URL is supplied.  `docC4` with
a `telegram-button` base directory exhibits the violation. -/

/-- Folding preserves any invariant each step preserves. -/
theorem foldl_preserve {α β : Type} (P : β → Prop) (step : β → α → β)
    (h : ∀ b a, P b → P (step b a)) :
    ∀ (l : List α) (b : β), P b → P (l.foldl step b) := by
  intro l
  induction l with
  | nil => intro b hb; exact hb
  | cons x xs ih => intro b hb; exact ih (step b x) (h b x hb)

/-- The `add` closure keeps the list duplicate-free. -/
theorem addImageUrl_nodup (base : Option (List Char)) (resolve : List Char → List Char → List Char)
    (urls : List (List Char)) (raw : List Char) (h : urls.Nodup) :
    (addImageUrl base resolve urls raw).Nodup := by
  unfold addImageUrl
  cases hn : normalize_image_url raw base resolve with
  | none => exact h
  | some norm =>
    dsimp only
    by_cases hmem : norm ∈ urls
    · rw [if_pos hmem]; exact h
    · rw [if_neg hmem]
      refine List.nodup_append.mpr ⟨h, List.nodup_singleton norm, ?_⟩
      intro a ha hb
      have : a = norm := by simpa using hb
      exact hmem (this ▸ ha)

/-- What `_normalize_image_url` lets through with no base URL satisfies all
three filters on the final string. -/
theorem normalize_none_good (raw : List Char) (resolve : List Char → List Char → List Char)
    (u : List Char) (h : normalize_image_url raw none resolve = some u) :
    goodImageUrl u = true := by
  simp only [normalize_image_url] at h
  by_cases h1 : pyStrip raw = []
  · rw [if_pos h1] at h; cases h
  rw [if_neg h1] at h
  by_cases h2 : "data:".toList.isPrefixOf (pyStrip raw) = true
  · rw [if_pos h2] at h; cases h
  rw [if_neg h2] at h
  by_cases h3 : (pyStrip raw).any isPyWs = true
  · rw [if_pos h3] at h; cases h
  rw [if_neg h3] at h
  by_cases h4 : anyWordIn skipImageWords
      (pyLower (if "//".toList.isPrefixOf (pyStrip raw) = true
        then "https:".toList ++ pyStrip raw else pyStrip raw)) = true
  · rw [if_pos h4] at h; cases h
  rw [if_neg h4] at h
  by_cases h5 : dotExtMatch ["svg".toList, "ico".toList]
      (if "//".toList.isPrefixOf (pyStrip raw) = true
        then "https:".toList ++ pyStrip raw else pyStrip raw) = true
  · rw [if_pos h5] at h; cases h
  rw [if_neg h5] at h
  have hu : u = (if "//".toList.isPrefixOf (pyStrip raw) = true
      then "https:".toList ++ pyStrip raw else pyStrip raw) := by
    cases h; rfl
  subst hu
  unfold goodImageUrl
  rw [Bool.eq_false_iff.mpr h4, Bool.eq_false_iff.mpr h5]
  by_cases h6 : "//".toList.isPrefixOf (pyStrip raw) = true
  · rw [if_pos h6]
    rw [show "data:".toList.isPrefixOf ("https:".toList ++ pyStrip raw) = false from rfl]
    rfl
  · rw [if_neg h6]
    rw [Bool.eq_false_iff.mpr h2]
    rfl

/-- The `add` closure preserves the filter invariant when no base URL is
supplied. -/
theorem addImageUrl_all_good (resolve : List Char → List Char → List Char)
    (urls : List (List Char)) (raw : List Char) (h : urls.all goodImageUrl = true) :
    (addImageUrl none resolve urls raw).all goodImageUrl = true := by
  unfold addImageUrl
  cases hn : normalize_image_url raw none resolve with
  | none => exact h
  | some norm =>
    dsimp only
    by_cases hmem : norm ∈ urls
    · rw [if_pos hmem]; exact h
    · rw [if_neg hmem]
      rw [List.all_append, h]
      simp [normalize_none_good raw resolve norm hn]

/-- The OG pass preserves any invariant the `add` closure preserves. -/
theorem ogImageFold_pres (soup : Node) (base : Option (List Char))
    (resolve : List Char → List Char → List Char) (urls0 : List (List Char))
    (P : List (List Char) → Prop)
    (hadd : ∀ urls raw, P urls → P (addImageUrl base resolve urls raw))
    (h0 : P urls0) : P (ogImageFold soup base resolve urls0) := by
  unfold ogImageFold
  refine foldl_preserve P _ ?_ _ _ h0
  intro b a hb
  dsimp only
  by_cases hc : pyLower ((getAttr a "property".toList).getD []) ∈ ogImageProps
  · rw [if_pos hc]
    cases truthyAttr a "content".toList with
    | none => exact hb
    | some c => dsimp only; exact hadd b c hb
  · rw [if_neg hc]; exact hb

/-- The Twitter pass preserves any invariant the `add` closure preserves. -/
theorem twitterImageFold_pres (soup : Node) (base : Option (List Char))
    (resolve : List Char → List Char → List Char) (urls0 : List (List Char))
    (P : List (List Char) → Prop)
    (hadd : ∀ urls raw, P urls → P (addImageUrl base resolve urls raw))
    (h0 : P urls0) : P (twitterImageFold soup base resolve urls0) := by
  unfold twitterImageFold
  refine foldl_preserve P _ ?_ _ _ h0
  intro b a hb
  dsimp only
  by_cases hc : pyLower ((getAttr a "name".toList).getD []) ∈ twitterImageNames
  · rw [if_pos hc]
    cases truthyAttr a "content".toList with
    | none => exact hb
    | some c => dsimp only; exact hadd b c hb
  · rw [if_neg hc]; exact hb

/-- The link step preserves any invariant the `add` closure preserves. -/
theorem linkImageStep_pres (soup : Node) (base : Option (List Char))
    (resolve : List Char → List Char → List Char) (urls0 : List (List Char))
    (P : List (List Char) → Prop)
    (hadd : ∀ urls raw, P urls → P (addImageUrl base resolve urls raw))
    (h0 : P urls0) : P (linkImageStep soup base resolve urls0) := by
  unfold linkImageStep
  cases findFirst
      (fun n => tagName n = "link".toList &&
        (match getAttr n "rel".toList with
         | some v => containsSub "image_src".toList (pyLower v)
         | none => false)) soup with
  | none => exact h0
  | some l =>
    dsimp only
    cases truthyAttr l "href".toList with
    | none => exact h0
    | some h => dsimp only; exact hadd urls0 h h0

/-- The inline pass preserves any invariant the `add` closure preserves. -/
theorem inlineImageFold_pres (container : Node) (base : Option (List Char))
    (resolve : List Char → List Char → List Char) (urls0 : List (List Char))
    (P : List (List Char) → Prop)
    (hadd : ∀ urls raw, P urls → P (addImageUrl base resolve urls raw))
    (h0 : P urls0) : P (inlineImageFold container base resolve urls0) := by
  unfold inlineImageFold
  refine foldl_preserve P _ ?_ _ _ h0
  intro b a hb
  dsimp only
  by_cases hsm : is_small_image a = true
  · rw [if_pos hsm]; exact hb
  · rw [if_neg hsm]
    cases pick_img_source a with
    | none => exact hb
    | some src =>
      dsimp only
      by_cases hs : src = []
      · rw [if_pos hs]; exact hb
      · rw [if_neg hs]; exact hadd b src hb

/-- Any invariant the `add` closure preserves holds of the full URL list
before the cap. -/
theorem extract_images_html_pres (soup container : Node) (base : Option (List Char))
    (resolve : List Char → List Char → List Char) (P : List (List Char) → Prop)
    (hP0 : P []) (hadd : ∀ urls raw, P urls → P (addImageUrl base resolve urls raw)) :
    P (inlineImageFold container base resolve
        (linkImageStep soup base resolve
          (twitterImageFold soup base resolve (ogImageFold soup base resolve [])))) :=
  inlineImageFold_pres _ _ _ _ P hadd
    (linkImageStep_pres _ _ _ _ P hadd
      (twitterImageFold_pres _ _ _ _ P hadd
        (ogImageFold_pres _ _ _ _ P hadd hP0)))

/-- The images of the plain-text path come from `_extract_images_from_plain_text`
applied to the filtered body text. -/
theorem extract_plain_images_shape (lines : List (List Char)) :
    ∃ t, (extract_plain_from_lines lines).images = extract_images_from_plain_text t := by
  unfold extract_plain_from_lines
  cases scanTitle lines with
  | none => exact ⟨_, rfl⟩
  | some ic => exact ⟨_, rfl⟩

/-- Elements of `_dedupe` output come from its input and are duplicate-free. -/
theorem dedupeSeen_nodup_sub (l : List (List Char)) :
    ∀ seen, (dedupeSeen seen l).Nodup ∧
      (∀ u ∈ dedupeSeen seen l, u ∈ l ∧ u ∉ seen) := by
  induction l with
  | nil => intro seen; exact ⟨List.nodup_nil, by intro u hu; cases hu⟩
  | cons x xs ih =>
    intro seen
    unfold dedupeSeen
    by_cases hx : x ∈ seen
    · rw [if_pos hx]
      refine ⟨(ih seen).1, ?_⟩
      intro u hu
      exact ⟨List.mem_cons_of_mem _ ((ih seen).2 u hu).1, ((ih seen).2 u hu).2⟩
    · rw [if_neg hx]
      constructor
      · refine List.nodup_cons.mpr ⟨?_, (ih (x :: seen)).1⟩
        intro hxin
        exact ((ih (x :: seen)).2 x hxin).2 (List.mem_cons_self _ _)
      · intro u hu
        rcases List.mem_cons.mp hu with rfl | hu'
        · exact ⟨List.mem_cons_self _ _, hx⟩
        · refine ⟨List.mem_cons_of_mem _ ((ih (x :: seen)).2 u hu').1, ?_⟩
          intro huseen
          exact ((ih (x :: seen)).2 u hu').2 (List.mem_cons_of_mem _ huseen)

/-- C4 (amended): the images list of either path never exceeds five entries
and never contains a duplicate; and whenever no base URL is supplied — in
particular always on the plain-text path — every entry passes the `data:`,
share-button and `.svg`/`.ico` filters.  (With a base URL the filters apply
to the pre-resolution URL only; see the counterexample.) -/
theorem images_invariants (soup : Node) (base : Option (List Char))
    (resolve : List Char → List Char → List Char) (s : List Char) :
    (extract_from_soup soup base resolve).images.length ≤ 5 ∧
    (extract_from_soup soup base resolve).images.Nodup ∧
    (extract_from_soup soup none resolve).images.all goodImageUrl = true ∧
    (extract_plain s).images.length ≤ 5 ∧
    (extract_plain s).images.Nodup ∧
    (extract_plain s).images.all goodImageUrl = true := by
  have hshape : ∀ (b : Option (List Char)),
      (extract_from_soup soup b resolve).images =
        (inlineImageFold (best_container (decomposeBoilerplate soup)) b resolve
          (linkImageStep (decomposeBoilerplate soup) b resolve
            (twitterImageFold (decomposeBoilerplate soup) b resolve
              (ogImageFold (decomposeBoilerplate soup) b resolve [])))).take 5 :=
    fun b => rfl
  obtain ⟨t, ht⟩ := extract_plain_images_shape ((pySplitlines s).map pyRstrip)
  have hplain : (extract_plain s).images = extract_images_from_plain_text t := ht
  have hpl := dedupeSeen_nodup_sub ((findUrls t).filterMap fun m =>
    match normalize_image_url m none (fun _ u => u) with
    | some norm => if dotExtMatch imageExts norm then some norm else none
    | none => none) []
  refine ⟨?_, ?_, ?_, ?_, ?_, ?_⟩
  · rw [hshape base]; exact List.length_take_le _ _
  · rw [hshape base]
    exact List.Nodup.sublist (List.take_sublist _ _)
      (extract_images_html_pres _ _ _ _ List.Nodup List.nodup_nil
        (fun urls raw h => addImageUrl_nodup _ _ _ _ h))
  · rw [hshape none]
    have hall := extract_images_html_pres (decomposeBoilerplate soup)
      (best_container (decomposeBoilerplate soup))
      none resolve (fun urls => urls.all goodImageUrl = true) rfl
      (fun urls raw h => addImageUrl_all_good _ _ _ h)
    refine List.all_eq_true.mpr ?_
    intro x hx
    exact List.all_eq_true.mp hall x (List.mem_of_mem_take hx)
  · rw [hplain]
    unfold extract_images_from_plain_text
    exact List.length_take_le _ _
  · rw [hplain]
    unfold extract_images_from_plain_text
    exact List.Nodup.sublist (List.take_sublist _ _) hpl.1
  · rw [hplain]
    unfold extract_images_from_plain_text dedupe
    refine List.all_eq_true.mpr ?_
    intro x hx
    dsimp only at hx
    have hxd := (hpl.2 x (List.mem_of_mem_take hx)).1
    rcases List.mem_filterMap.mp hxd with ⟨m, _, hm⟩
    cases hn : normalize_image_url m none (fun _ u => u) with
    | none => rw [hn] at hm; cases hm
    | some norm =>
      rw [hn] at hm
      dsimp only at hm
      by_cases hext : dotExtMatch imageExts norm = true
      · rw [if_pos hext] at hm
        cases hm
        exact normalize_none_good m _ x hn
      · rw [if_neg hext] at hm; cases hm

/-- C4 counterexample: with base URL `https://e.com/telegram-button/` and a
relative `og:image` of `y.jpg`, the returned images list contains the
resolved URL `https://e.com/telegram-button/y.jpg`, which matches the
share-button pattern the claim forbids. -/
theorem images_share_pattern_via_base :
    (extract_from_soup docC4 (some "https://e.com/telegram-button/".toList)
        urljoinDirRel).images = ["https://e.com/telegram-button/y.jpg".toList] ∧
    anyWordIn skipImageWords
      (pyLower "https://e.com/telegram-button/y.jpg".toList) = true := by
  exact ⟨by decide, by decide⟩

/-! ## Claim C8 — the small-image skip

`_is_small_image` requires *both* declared dimensions to parse to non-zero
integers before comparing against 120, so an `<img>` with only `width="50"`
is not skipped (`docC8` exhibits it).  The amended characterization and the
fact that skipped images contribute nothing to the output (pruning them from
the container leaves the images unchanged) are proved together. -/

/-- Pruning small images commutes with the `img` search: on containers whose
`<img>` elements are childless (as the parser guarantees for the void
element), the remaining images are exactly the non-small ones. -/
theorem dropSmall_filter_eq : ∀ cs : List Node, imgChildlessList cs = true →
    (allNodesList (dropSmallList cs)).filter (fun d => tagName d = "img".toList) =
      (allNodesList cs).filter
        (fun d => !(is_small_image d) && (tagName d = "img".toList : Bool)) := by
  refine dropSmallList.induct
    (fun n => imgChildlessList (childrenOf n) = true →
      (allNodesList (dropSmallList (childrenOf n))).filter
          (fun d => tagName d = "img".toList) =
        (allNodesList (childrenOf n)).filter
          (fun d => !(is_small_image d) && (tagName d = "img".toList : Bool)))
    (fun cs => imgChildlessList cs = true →
      (allNodesList (dropSmallList cs)).filter (fun d => tagName d = "img".toList) =
        (allNodesList cs).filter
          (fun d => !(is_small_image d) && (tagName d = "img".toList : Bool)))
    ?_ ?_ ?_ ?_ ?_ ?_
  · intro t attrs children ih
    exact ih
  · intro n hne
    cases n with
    | elem t a cs => exact absurd rfl (hne t a cs)
    | text s => intro _; rfl
    | comment s => intro _; rfl
  · intro _
    rfl
  · -- dropped: a small image, childless, vanishes from both sides
    intro cs t attrs children hsmall ih hch
    simp only [imgChildlessList, Bool.and_eq_true] at hch
    obtain ⟨hch1, hch2⟩ := hch
    have himg : t = "img".toList := by
      have hsmall2 := hsmall
      simp only [Bool.and_eq_true] at hsmall2
      exact of_decide_eq_true hsmall2.1
    have hkids : children = [] := by
      simp only [imgsChildless, Bool.and_eq_true] at hch1
      rcases hch1 with ⟨h2, _⟩
      rw [if_pos himg] at h2
      exact List.isEmpty_iff.mp h2
    subst hkids
    have h0 : dropSmallList (Node.elem t attrs [] :: cs) =
        if (decide (t = "img".toList) && is_small_image (Node.elem t attrs [])) = true
        then dropSmallList cs
        else dropSmallImgs (Node.elem t attrs []) :: dropSmallList cs := rfl
    rw [h0, if_pos hsmall, ih hch2]
    have hR : allNodesList (Node.elem t attrs [] :: cs) =
        Node.elem t attrs [] :: allNodesList cs := rfl
    rw [hR, List.filter_cons]
    have hsm : is_small_image (Node.elem t attrs []) = true := by
      have hsmall2 := hsmall
      simp only [Bool.and_eq_true] at hsmall2
      exact hsmall2.2
    rw [if_neg (by simp [hsm])]
  · -- kept: a non-small image (childless) or a non-image element
    intro cs t attrs children hkeep ih1 ih2 hch
    simp only [imgChildlessList, Bool.and_eq_true] at hch
    obtain ⟨hch1, hch2⟩ := hch
    simp only [childrenOf] at ih1
    by_cases himg : t = "img".toList
    · have hkids : children = [] := by
        simp only [imgsChildless, Bool.and_eq_true] at hch1
        rcases hch1 with ⟨h2, _⟩
        rw [if_pos himg] at h2
        exact List.isEmpty_iff.mp h2
      subst hkids
      have hnotsmall : is_small_image (Node.elem t attrs []) = false := by
        cases hs : is_small_image (Node.elem t attrs []) with
        | false => rfl
        | true =>
          exact absurd (by rw [hs, Bool.and_true]; exact decide_eq_true himg) hkeep
      have h0 : dropSmallList (Node.elem t attrs [] :: cs) =
          if (decide (t = "img".toList) && is_small_image (Node.elem t attrs [])) = true
          then dropSmallList cs
          else dropSmallImgs (Node.elem t attrs []) :: dropSmallList cs := rfl
      rw [h0, if_neg hkeep]
      have hL : allNodesList (dropSmallImgs (Node.elem t attrs []) :: dropSmallList cs) =
          Node.elem t attrs [] :: allNodesList (dropSmallList cs) := rfl
      have hR : allNodesList (Node.elem t attrs [] :: cs) =
          Node.elem t attrs [] :: allNodesList cs := rfl
      rw [hL, hR, List.filter_cons, List.filter_cons, ih2 hch2]
      rw [if_pos (show decide
          (tagName (Node.elem t attrs []) = "img".toList) = true by
        simp [tagName, himg])]
      rw [if_pos (show (!(is_small_image (Node.elem t attrs [])) &&
          decide (tagName (Node.elem t attrs []) = "img".toList)) = true by
        rw [hnotsmall]
        simp [tagName, himg])]
    · have h0 : dropSmallList (Node.elem t attrs children :: cs) =
          if (decide (t = "img".toList) && is_small_image (Node.elem t attrs children)) = true
          then dropSmallList cs
          else dropSmallImgs (Node.elem t attrs children) :: dropSmallList cs := rfl
      rw [h0, if_neg hkeep]
      have hchkids : imgChildlessList children = true := by
        simp only [imgsChildless, Bool.and_eq_true] at hch1
        exact hch1.2
      have hL : allNodesList (dropSmallImgs (Node.elem t attrs children) :: dropSmallList cs) =
          Node.elem t attrs (dropSmallList children) ::
            (allNodesList (dropSmallList children) ++ allNodesList (dropSmallList cs)) := rfl
      have hR : allNodesList (Node.elem t attrs children :: cs) =
          Node.elem t attrs children :: (allNodesList children ++ allNodesList cs) := rfl
      rw [hL, hR, List.filter_cons, List.filter_cons, List.filter_append, List.filter_append,
        ih1 hchkids, ih2 hch2]
      rw [if_neg (show ¬(decide
          (tagName (Node.elem t attrs (dropSmallList children)) = "img".toList) = true) by
        simp [tagName]
        exact himg)]
      rw [if_neg (show ¬((!(is_small_image (Node.elem t attrs children)) &&
          decide (tagName (Node.elem t attrs children) = "img".toList)) = true) by
        simp [tagName]
        intro _
        exact himg)]
  · -- a text or comment head passes through unchanged
    intro c cs hne ih hch
    have hch2 : imgChildlessList cs = true := by
      cases c with
      | elem t a k => exact absurd rfl (hne t a k)
      | text s =>
        simp only [imgChildlessList, imgsChildless, Bool.and_eq_true] at hch
        exact hch.2
      | comment s =>
        simp only [imgChildlessList, imgsChildless, Bool.and_eq_true] at hch
        exact hch.2
    cases c with
    | elem t a k => exact absurd rfl (hne t a k)
    | text s =>
      have h0 : dropSmallList (Node.text s :: cs) = Node.text s :: dropSmallList cs := rfl
      rw [h0]
      have hL : allNodesList (Node.text s :: dropSmallList cs) =
          Node.text s :: allNodesList (dropSmallList cs) := rfl
      have hR : allNodesList (Node.text s :: cs) = Node.text s :: allNodesList cs := rfl
      rw [hL, hR, List.filter_cons, List.filter_cons, ih hch2]
      rw [if_neg (show ¬(decide (tagName (Node.text s) = "img".toList) = true) by
        simp [tagName])]
      rw [if_neg (show ¬((!(is_small_image (Node.text s)) &&
          decide (tagName (Node.text s) = "img".toList)) = true) by
        simp [tagName])]
    | comment s =>
      have h0 : dropSmallList (Node.comment s :: cs) = Node.comment s :: dropSmallList cs := rfl
      rw [h0]
      have hL : allNodesList (Node.comment s :: dropSmallList cs) =
          Node.comment s :: allNodesList (dropSmallList cs) := rfl
      have hR : allNodesList (Node.comment s :: cs) = Node.comment s :: allNodesList cs := rfl
      rw [hL, hR, List.filter_cons, List.filter_cons, ih hch2]
      rw [if_neg (show ¬(decide (tagName (Node.comment s) = "img".toList) = true) by
        simp [tagName])]
      rw [if_neg (show ¬((!(is_small_image (Node.comment s)) &&
          decide (tagName (Node.comment s) = "img".toList)) = true) by
        simp [tagName])]

/-- The `img` search on the pruned container. -/
theorem findAllTag_dropSmall (c : Node) (h : imgsChildless c = true) :
    findAllTag "img".toList (dropSmallImgs c) =
      (findAllTag "img".toList c).filter (fun i => !(is_small_image i)) := by
  cases c with
  | elem t a cs =>
    have hcs : imgChildlessList cs = true := by
      simp only [imgsChildless, Bool.and_eq_true] at h
      exact h.2
    unfold findAllTag dropSmallImgs descendants
    rw [List.filter_filter]
    exact dropSmall_filter_eq cs hcs
  | text s => rfl
  | comment s => rfl

/-- Folding the inline-image step over the non-small images only is the same
as folding it over all of them: the step skips small images itself. -/
theorem inlineFold_skip_small (base : Option (List Char))
    (resolve : List Char → List Char → List Char) :
    ∀ (imgs : List Node) (urls0 : List (List Char)),
      ((imgs.filter fun i => !(is_small_image i)).foldl
        (fun urls img =>
          if is_small_image img then urls
          else
            match pick_img_source img with
            | some src => if src = [] then urls else addImageUrl base resolve urls src
            | none => urls) urls0) =
      (imgs.foldl
        (fun urls img =>
          if is_small_image img then urls
          else
            match pick_img_source img with
            | some src => if src = [] then urls else addImageUrl base resolve urls src
            | none => urls) urls0) := by
  intro imgs
  induction imgs with
  | nil => intro urls0; rfl
  | cons img rest ih =>
    intro urls0
    by_cases hs : is_small_image img = true
    · rw [List.filter_cons, if_neg (by simp [hs])]
      rw [List.foldl_cons, if_pos hs]
      exact ih urls0
    · rw [List.filter_cons, if_pos (by simp [hs])]
      rw [List.foldl_cons, List.foldl_cons]
      rw [if_neg hs]
      exact ih _

/-- C8 (amended): an `<img>` is skipped exactly when *both* its declared
`width` and `height` parse to non-zero integers and one of them is below
120 — a single sub-120 dimension with the other absent is not skipped — and
the skipped images contribute nothing: pruning them from a container (with
parser-shaped, childless `<img>` elements) leaves the extracted image list
unchanged. -/
theorem small_image_semantics (img soup container : Node) (base : Option (List Char))
    (resolve : List Char → List Char → List Char) :
    (is_small_image img = true ↔
      ∃ w h : Int, dimAttr img "width".toList = some w ∧
        dimAttr img "height".toList = some h ∧
        w ≠ 0 ∧ h ≠ 0 ∧ (w < 120 ∨ h < 120)) ∧
    (imgsChildless container = true →
      extract_images_from_html soup (dropSmallImgs container) base resolve =
        extract_images_from_html soup container base resolve) := by
  constructor
  · unfold is_small_image
    cases hw : dimAttr img "width".toList with
    | none => simp [hw]
    | some w =>
      cases hh : dimAttr img "height".toList with
      | none => simp [hw, hh]
      | some h =>
        simp only [hw, hh]
        constructor
        · intro hb
          refine ⟨w, h, rfl, rfl, ?_⟩
          simp only [Bool.and_eq_true, Bool.or_eq_true, Bool.not_eq_true',
            decide_eq_false_iff_not, decide_eq_true_eq] at hb
          exact ⟨hb.1.1, hb.1.2, hb.2⟩
        · rintro ⟨w', h', hw', hh', hnz1, hnz2, hlt⟩
          cases hw'
          cases hh'
          simp only [Bool.and_eq_true, Bool.or_eq_true, Bool.not_eq_true',
            decide_eq_false_iff_not, decide_eq_true_eq]
          exact ⟨⟨hnz1, hnz2⟩, hlt⟩
  · intro hch
    unfold extract_images_from_html
    congr 1
    unfold inlineImageFold
    rw [findAllTag_dropSmall container hch]
    exact inlineFold_skip_small base resolve _ _

/-- C8 witness: a concrete childless-image container with one small and one
regular image; the theorem's pruning clause applies to it. -/
theorem small_image_semantics_witness :
    (is_small_image imgC8 = true ↔
      ∃ w h : Int, dimAttr imgC8 "width".toList = some w ∧
        dimAttr imgC8 "height".toList = some h ∧
        w ≠ 0 ∧ h ≠ 0 ∧ (w < 120 ∨ h < 120)) ∧
    (extract_images_from_html docC8 (dropSmallImgs docC8) none noResolve =
      extract_images_from_html docC8 docC8 none noResolve) :=
  ⟨(small_image_semantics imgC8 docC8 docC8 none noResolve).1,
   (small_image_semantics imgC8 docC8 docC8 none noResolve).2 (by decide)⟩

/-- C8 counterexample: the image of `docC8` declares `width="50"` (present
and below 120) and no height, yet its URL `pic.jpg` is collected — the claim
says any such image is skipped. -/
theorem small_width_only_not_skipped :
    getAttr imgC8 "width".toList = some "50".toList ∧
    pyInt "50".toList = some 50 ∧
    getAttr imgC8 "height".toList = none ∧
    (extract_from_soup docC8 none noResolve).images = ["pic.jpg".toList] := by
  exact ⟨rfl, by decide, rfl, by decide⟩

/-! ### Normalization lemmas (claim C2) -/

/-- Unfolding equation for `noTrailBeforeNl` phrased through `head?`. -/
theorem noTrail_cons_eq (c : Char) (r : List Char) :
    noTrailBeforeNl (c :: r) =
      (!(isHws c && r.head? = some '\n') && noTrailBeforeNl r) := by
  cases r <;> simp [noTrailBeforeNl]

/-- `noTrailBeforeNl` passes to the tail. -/
theorem noTrail_tail {c : Char} {r : List Char}
    (h : noTrailBeforeNl (c :: r) = true) : noTrailBeforeNl r = true := by
  rw [noTrail_cons_eq] at h
  simp only [Bool.and_eq_true] at h
  exact h.2

/-- Unfolding equation for `noTripleNl` phrased through `head?`. -/
theorem noTriple_cons_eq (c : Char) (r : List Char) :
    noTripleNl (c :: r) =
      (!(c = '\n' && r.head? = some '\n' && (r.drop 1).head? = some '\n') &&
        noTripleNl r) := by
  cases r with
  | nil => simp [noTripleNl]
  | cons a r' => cases r' <;> simp [noTripleNl]

/-- `noTripleNl` passes to the tail. -/
theorem noTriple_tail {c : Char} {r : List Char}
    (h : noTripleNl (c :: r) = true) : noTripleNl r = true := by
  rw [noTriple_cons_eq] at h
  simp only [Bool.and_eq_true] at h
  exact h.2

/-- The first substitution leaves no space or tab before a newline. -/
theorem cleanStep1_noTrail : ∀ s : List Char, noTrailBeforeNl (cleanStep1 s) = true := by
  intro s
  induction s with
  | nil => rfl
  | cons c rest ih =>
    simp only [cleanStep1]
    by_cases hc : (isHws c && (cleanStep1 rest).head? = some '\n') = true
    · rw [if_pos hc]; exact ih
    · rw [if_neg hc]
      have hx : (isHws c && (cleanStep1 rest).head? = some '\n' : Bool) = false :=
        Bool.eq_false_iff.mpr hc
      rw [noTrail_cons_eq]
      simp [hx, ih]

/-- The newline-capping substitution can only expose a newline that already
led its input. -/
theorem cleanStep2_head_nl (s : List Char)
    (h : (cleanStep2 s).head? = some '\n') : s.head? = some '\n' := by
  cases s with
  | nil => exact h
  | cons c rest =>
    simp only [cleanStep2] at h
    by_cases hc : (c = '\n' && "\n\n".toList.isPrefixOf (cleanStep2 rest)) = true
    · rw [if_pos hc] at h
      simp only [Bool.and_eq_true, decide_eq_true_eq] at hc
      simp [hc.1]
    · rw [if_neg hc] at h
      exact h

/-- The newline-capping substitution preserves the no-trailing-space shape. -/
theorem cleanStep2_noTrail : ∀ s : List Char,
    noTrailBeforeNl s = true → noTrailBeforeNl (cleanStep2 s) = true := by
  intro s
  induction s with
  | nil => intro _; rfl
  | cons c rest ih =>
    intro h
    have hrest := ih (noTrail_tail h)
    simp only [cleanStep2]
    by_cases hc : (c = '\n' && "\n\n".toList.isPrefixOf (cleanStep2 rest)) = true
    · rw [if_pos hc]; exact hrest
    · rw [if_neg hc]
      rw [noTrail_cons_eq]
      by_cases hy : (isHws c && (cleanStep2 rest).head? = some '\n' : Bool) = true
      · exfalso
        simp only [Bool.and_eq_true, decide_eq_true_eq] at hy
        have hr : rest.head? = some '\n' := cleanStep2_head_nl rest hy.2
        rw [noTrail_cons_eq] at h
        simp only [Bool.and_eq_true] at h
        have hleft := h.1
        rw [hy.1, hr] at hleft
        simp at hleft
      · have hx := Bool.eq_false_iff.mpr hy
        simp [hx, hrest]

/-- Starting with two newlines, as a pair of `head?` facts. -/
theorem prefix_nlnl_iff (r : List Char) :
    ("\n\n".toList.isPrefixOf r = true) ↔
      (r.head? = some '\n' ∧ (r.drop 1).head? = some '\n') := by
  rw [show "\n\n".toList = ['\n', '\n'] from rfl]
  cases r with
  | nil => simp [List.isPrefixOf]
  | cons a r' =>
    cases r' with
    | nil => simp [List.isPrefixOf]
    | cons b r'' =>
      simp [List.isPrefixOf]
      constructor
      · rintro ⟨h1, h2⟩; exact ⟨h1.symm, h2.symm⟩
      · rintro ⟨h1, h2⟩; exact ⟨h1.symm, h2.symm⟩

/-- The newline-capping substitution leaves no three consecutive newlines. -/
theorem cleanStep2_noTriple : ∀ s : List Char, noTripleNl (cleanStep2 s) = true := by
  intro s
  induction s with
  | nil => rfl
  | cons c rest ih =>
    simp only [cleanStep2]
    by_cases hc : (c = '\n' && "\n\n".toList.isPrefixOf (cleanStep2 rest)) = true
    · rw [if_pos hc]; exact ih
    · rw [if_neg hc]
      rw [noTriple_cons_eq]
      by_cases hy : (c = '\n' && (cleanStep2 rest).head? = some '\n' &&
          ((cleanStep2 rest).drop 1).head? = some '\n' : Bool) = true
      · exfalso
        simp only [Bool.and_eq_true, decide_eq_true_eq] at hy
        exact hc (by
          simp only [Bool.and_eq_true, decide_eq_true_eq]
          exact ⟨hy.1.1, (prefix_nlnl_iff _).mpr ⟨hy.1.2, hy.2⟩⟩)
      · have hx := Bool.eq_false_iff.mpr hy
        rw [hx]
        simpa using ih

/-- The no-trailing-space shape survives dropping a prefix. -/
theorem noTrail_dropWhile (p : Char → Bool) : ∀ s : List Char,
    noTrailBeforeNl s = true → noTrailBeforeNl (s.dropWhile p) = true := by
  intro s
  induction s with
  | nil => intro h; exact h
  | cons c rest ih =>
    intro h
    rw [List.dropWhile_cons]
    by_cases hp : p c = true
    · rw [if_pos hp]; exact ih (noTrail_tail h)
    · rw [if_neg hp]; exact h

/-- The no-triple-newline shape survives dropping a prefix. -/
theorem noTriple_dropWhile (p : Char → Bool) : ∀ s : List Char,
    noTripleNl s = true → noTripleNl (s.dropWhile p) = true := by
  intro s
  induction s with
  | nil => intro h; exact h
  | cons c rest ih =>
    intro h
    rw [List.dropWhile_cons]
    by_cases hp : p c = true
    · rw [if_pos hp]; exact ih (noTriple_tail h)
    · rw [if_neg hp]; exact h

/-- `dropTailWhile` returns a prefix of its input. -/
theorem dropTailWhile_append (p : Char → Bool) :
    ∀ s : List Char, ∃ t, dropTailWhile p s ++ t = s := by
  intro s
  induction s with
  | nil => exact ⟨[], rfl⟩
  | cons c rest ih =>
    obtain ⟨t, ht⟩ := ih
    cases hr : dropTailWhile p rest with
    | nil =>
      by_cases hp : p c = true
      · exact ⟨c :: rest, by simp only [dropTailWhile]; rw [hr]; dsimp only; rw [if_pos hp]; rfl⟩
      · exact ⟨rest, by simp only [dropTailWhile]; rw [hr]; dsimp only; rw [if_neg hp]; rfl⟩
    | cons x xs =>
      rw [hr] at ht
      exact ⟨t, by simp only [dropTailWhile]; rw [hr]; dsimp only; rw [List.cons_append, ht]⟩

/-- The no-trailing-space shape is inherited by prefixes. -/
theorem noTrail_of_append : ∀ u v : List Char,
    noTrailBeforeNl (u ++ v) = true → noTrailBeforeNl u = true := by
  intro u
  induction u with
  | nil => intro v _; rfl
  | cons c u' ih =>
    intro v h
    rw [List.cons_append] at h
    rw [noTrail_cons_eq] at h ⊢
    simp only [Bool.and_eq_true] at h ⊢
    refine ⟨?_, ih v h.2⟩
    cases u' with
    | nil => simp
    | cons d u'' => simpa using h.1

/-- The no-triple-newline shape is inherited by prefixes. -/
theorem noTriple_of_append : ∀ u v : List Char,
    noTripleNl (u ++ v) = true → noTripleNl u = true := by
  intro u
  induction u with
  | nil => intro v _; rfl
  | cons c u' ih =>
    intro v h
    rw [List.cons_append] at h
    rw [noTriple_cons_eq] at h ⊢
    simp only [Bool.and_eq_true] at h ⊢
    refine ⟨?_, ih v h.2⟩
    cases u' with
    | nil => simp
    | cons d u'' =>
      cases u'' with
      | nil => simp
      | cons e u''' => simpa using h.1

/-- A head exposed by `dropTailWhile` is the input's head. -/
theorem dropTailWhile_head (p : Char → Bool) (s : List Char) (c : Char)
    (h : (dropTailWhile p s).head? = some c) : s.head? = some c := by
  obtain ⟨t, ht⟩ := dropTailWhile_append p s
  rw [← ht]
  cases hd : dropTailWhile p s with
  | nil => rw [hd] at h; simp at h
  | cons x xs =>
    rw [hd] at h
    exact h

/-- The last character kept by `dropTailWhile` fails the predicate. -/
theorem dropTailWhile_getLast (p : Char → Bool) : ∀ s : List Char, ∀ c : Char,
    (dropTailWhile p s).getLast? = some c → p c = false := by
  intro s
  induction s with
  | nil => intro c h; simp [dropTailWhile] at h
  | cons a rest ih =>
    intro c h
    simp only [dropTailWhile] at h
    cases hr : dropTailWhile p rest with
    | nil =>
      rw [hr] at h
      dsimp only at h
      by_cases hp : p a = true
      · rw [if_pos hp] at h; simp at h
      · rw [if_neg hp] at h
        have hac : a = c := by simpa using h
        rw [← hac]
        simpa using hp
    | cons x xs =>
      rw [hr] at h
      dsimp only at h
      rw [List.getLast?_cons_cons] at h
      exact ih c (by rw [hr]; exact h)

/-- The head surviving `dropWhile` fails the predicate. -/
theorem dropWhile_head_not (p : Char → Bool) : ∀ s : List Char, ∀ c : Char,
    (s.dropWhile p).head? = some c → p c = false := by
  intro s
  induction s with
  | nil => intro c h; simp at h
  | cons a rest ih =>
    intro c h
    rw [List.dropWhile_cons] at h
    by_cases hp : p a = true
    · rw [if_pos hp] at h; exact ih c h
    · rw [if_neg hp] at h
      have hac : a = c := by simpa using h
      rw [← hac]
      simpa using hp

/-- `str.strip()` output touches no whitespace at either end. -/
theorem pyStrip_strippedOuter (s : List Char) : strippedOuter (pyStrip s) = true := by
  unfold strippedOuter
  simp only [Bool.and_eq_true]
  constructor
  · cases hh : (pyStrip s).head? with
    | none => rfl
    | some c =>
      have h1 : (s.dropWhile isPyWs).head? = some c := dropTailWhile_head _ _ _ hh
      have h2 : isPyWs c = false := dropWhile_head_not _ _ _ h1
      simp [h2]
  · cases hl : (pyStrip s).getLast? with
    | none => rfl
    | some c =>
      have h2 : isPyWs c = false := dropTailWhile_getLast _ _ _ hl
      simp [h2]

/-- `_clean_text` output satisfies the full normalization invariant. -/
theorem clean_text_normalized (s : List Char) : normalizedText (clean_text s) = true := by
  unfold normalizedText clean_text pyStrip
  simp only [Bool.and_eq_true]
  refine ⟨⟨?_, ?_⟩, pyStrip_strippedOuter _⟩
  · have h2 : noTrailBeforeNl (cleanStep2 (cleanStep1 s)) = true :=
      cleanStep2_noTrail _ (cleanStep1_noTrail s)
    have h3 : noTrailBeforeNl ((cleanStep2 (cleanStep1 s)).dropWhile isPyWs) = true :=
      noTrail_dropWhile _ _ h2
    obtain ⟨t, ht⟩ := dropTailWhile_append isPyWs ((cleanStep2 (cleanStep1 s)).dropWhile isPyWs)
    exact noTrail_of_append _ t (by rw [ht]; exact h3)
  · have h3 : noTripleNl ((cleanStep2 (cleanStep1 s)).dropWhile isPyWs) = true :=
      noTriple_dropWhile _ _ (cleanStep2_noTriple _)
    obtain ⟨t, ht⟩ := dropTailWhile_append isPyWs ((cleanStep2 (cleanStep1 s)).dropWhile isPyWs)
    exact noTriple_of_append _ t (by rw [ht]; exact h3)

/-- The HTML branch either normalizes its text or hands back the stripped
description meta verbatim. -/
theorem soup_text_normalized_or_desc (soup : Node) (base : Option (List Char))
    (resolve : List Char → List Char → List Char) :
    normalizedText (extract_from_soup soup base resolve).text = true ∨
    ∃ m c, ogDescMeta (decomposeBoilerplate soup) = some m ∧
      truthyAttr m "content".toList = some c ∧
      (extract_from_soup soup base resolve).text = pyStrip c := by
  simp only [extract_from_soup]
  by_cases hlen :
      (clean_text (assembledBody (best_container (decomposeBoilerplate soup)))).length < 120
  · rw [if_pos hlen]
    cases hm : ogDescMeta (decomposeBoilerplate soup) with
    | none => dsimp only; exact Or.inl (clean_text_normalized _)
    | some m =>
      dsimp only
      cases hc : truthyAttr m "content".toList with
      | none => dsimp only; exact Or.inl (clean_text_normalized _)
      | some c =>
        dsimp only
        by_cases h2 :
            (clean_text (assembledBody (best_container (decomposeBoilerplate soup)))).length <
              (pyStrip c).length
        · rw [if_pos h2]
          exact Or.inr ⟨m, c, rfl, hc, rfl⟩
        · rw [if_neg h2]
          exact Or.inl (clean_text_normalized _)
  · rw [if_neg hlen]
    exact Or.inl (clean_text_normalized _)

/-- C2 (amended): for every input, base URL, parse and resolve functions, the
returned text is normalized — no trailing space or tab before a newline, no
three consecutive newlines, no outer whitespace — unless the thin-content
fallback substituted the document's description meta, in which case the text
is exactly the stripped `content` attribute of that meta (which need not be
normalized). -/
theorem text_normalized_unless_desc (html : List Char) (base : Option (List Char))
    (parse : List Char → Node) (resolve : List Char → List Char → List Char) :
    normalizedText (extract_readable_text html base parse resolve).text = true ∨
    ∃ m c, ogDescMeta (decomposeBoilerplate (parse (sanitize html))) = some m ∧
      truthyAttr m "content".toList = some c ∧
      (extract_readable_text html base parse resolve).text = pyStrip c := by
  simp only [extract_readable_text]
  by_cases hd : (!(sanitize html).contains '<' && !(sanitize html).contains '>') = true
  · rw [if_pos hd]
    left
    simp only [extract_plain, extract_plain_from_lines]
    exact clean_text_normalized _
  · rw [if_neg hd]
    exact soup_text_normalized_or_desc _ base resolve

/-- C2 counterexample: a thin document whose `og:description` content carries
spaces before an inner newline; the engine returns it unnormalized. -/
theorem desc_fallback_not_normalized :
    (extract_readable_text "<d>".toList none (fun _ => docC2) noResolve).text
        = "A   \nB".toList ∧
    normalizedText "A   \nB".toList = false :=
  ⟨by decide, by decide⟩

/-! ### Line-start scan lemmas (claim C7) -/

/-- `dropWhile` only consults the characters it visits. -/
theorem dropWhile_congr_on (p q : Char → Bool) : ∀ l : List Char,
    (∀ c ∈ l, p c = q c) → l.dropWhile p = l.dropWhile q := by
  intro l
  induction l with
  | nil => intro _; rfl
  | cons c rest ih =>
    intro h
    rw [List.dropWhile_cons, List.dropWhile_cons, h c (List.mem_cons_self c rest)]
    by_cases hq : q c = true
    · rw [if_pos hq, if_pos hq]
      exact ih fun d hd => h d (List.mem_cons_of_mem c hd)
    · rw [if_neg hq, if_neg hq]

/-- `colonAfter` under agreeing whitespace classes. -/
theorem colonAfter_congr_on (p q : Char → Bool) (t : List Char)
    (h : ∀ c ∈ t, p c = q c) : colonAfter p t = colonAfter q t := by
  unfold colonAfter
  rw [dropWhile_congr_on p q t h]

/-- `matchSeq` under agreeing whitespace classes. -/
theorem matchSeq_congr_on (p q : Char → Bool) : ∀ (m t : List Char),
    (∀ c ∈ t, p c = q c) → matchSeq p m t = matchSeq q m t := by
  intro m
  induction m with
  | nil => intro t h; exact colonAfter_congr_on p q t h
  | cons x xs ih =>
    intro t h
    cases t with
    | nil => rfl
    | cons c cs =>
      show (ciEq x c && matchSeq p xs cs) = (ciEq x c && matchSeq q xs cs)
      rw [ih cs fun d hd => h d (List.mem_cons_of_mem c hd)]

/-- A Boolean `any` over a list only consults its members. -/
theorem anyCongrOn (l : List (List Char)) (f g : List Char → Bool)
    (h : ∀ a ∈ l, f a = g a) : l.any f = l.any g := by
  induction l with
  | nil => rfl
  | cons a t ih =>
    rw [List.any_cons, List.any_cons, h a (List.mem_cons_self a t),
      ih fun b hb => h b (List.mem_cons_of_mem a hb)]

/-- `metaLineMatch` under agreeing whitespace classes. -/
theorem metaLineMatch_congr_on (p q : Char → Bool) (s : List Char)
    (h : ∀ c ∈ s, p c = q c) : metaLineMatch p s = metaLineMatch q s := by
  unfold metaLineMatch
  rw [dropWhile_congr_on p q s h]
  exact anyCongrOn metaMarkers _ _ fun m _ =>
    matchSeq_congr_on p q m _ fun c hc => h c (List.dropWhile_subset q hc)

/-- On a break-free string, Python whitespace and within-line whitespace
agree. -/
theorem breakFree_ws (l : List Char) (h : breakFree l = true) :
    ∀ c ∈ l, isPyWs c = lws c := by
  intro c hc
  have hcb : (!(isBreakChar c)) = true := by
    unfold breakFree at h
    exact List.all_eq_true.mp h c hc
  have hne : ¬(c = '\n') := by
    intro he
    rw [he] at hcb
    exact absurd hcb (by decide)
  unfold lws
  simp [hne]

/-- `breakFree` restricts to prefixes. -/
theorem breakFree_of_append (u t : List Char) (h : breakFree (u ++ t) = true) :
    breakFree u = true := by
  unfold breakFree at h ⊢
  rw [List.all_append] at h
  simp only [Bool.and_eq_true] at h
  exact h.1

/-- `breakFree` restricts to sub-collections of characters. -/
theorem breakFree_subset (u v : List Char) (hsub : v ⊆ u)
    (h : breakFree u = true) : breakFree v = true := by
  unfold breakFree at h ⊢
  rw [List.all_eq_true] at h ⊢
  exact fun c hc => h c (hsub hc)

/-- `breakFree` passes to the tail. -/
theorem breakFree_tail {c : Char} {cs : List Char}
    (h : breakFree (c :: cs) = true) : breakFree cs = true := by
  unfold breakFree at h ⊢
  rw [List.all_cons] at h
  simp only [Bool.and_eq_true] at h
  exact h.2

/-- Right-stripping keeps a line break-free. -/
theorem breakFree_pyRstrip (l : List Char) (h : breakFree l = true) :
    breakFree (pyRstrip l) = true := by
  obtain ⟨t, ht⟩ := dropTailWhile_append isPyWs l
  refine breakFree_of_append _ t ?_
  unfold pyRstrip
  rw [ht]
  exact h

/-- Every `splitlines` output line is break-free. -/
theorem splitlines_breakFree : ∀ s : List Char, ∀ l ∈ pySplitlines s,
    breakFree l = true := by
  intro s
  induction s using pySplitlines.induct with
  | case1 => intro l hl; simp [pySplitlines] at hl
  | case2 rest ih =>
    intro l hl
    rw [pySplitlines] at hl
    rcases List.mem_cons.mp hl with he | hm
    · rw [he]; rfl
    · exact ih l hm
  | case3 c rest hne hbr ih =>
    intro l hl
    rw [pySplitlines.eq_def] at hl
    split at hl
    · exact absurd hl (by simp)
    · rename_i rest1 heq
      injection heq with hx hy
      exact (hne rest1 hx hy).elim
    · rename_i c2 rest2 hne2 heq
      injection heq with hc hr
      subst hc
      subst hr
      rw [if_pos hbr] at hl
      rcases List.mem_cons.mp hl with he | hm
      · rw [he]; rfl
      · exact ih l hm
  | case4 c rest hne hbr hsp ih =>
    intro l hl
    rw [pySplitlines.eq_def] at hl
    split at hl
    · exact absurd hl (by simp)
    · rename_i rest1 heq
      injection heq with hx hy
      exact (hne rest1 hx hy).elim
    · rename_i c2 rest2 hne2 heq
      injection heq with hc hr
      subst hc
      subst hr
      rw [if_neg hbr, hsp] at hl
      have he : l = [c] := by simpa using hl
      rw [he]
      simp [breakFree, hbr]
  | case5 c rest hne hbr x xs hsp ih =>
    intro l hl
    rw [pySplitlines.eq_def] at hl
    split at hl
    · exact absurd hl (by simp)
    · rename_i rest1 heq
      injection heq with hx hy
      exact (hne rest1 hx hy).elim
    · rename_i c2 rest2 hne2 heq
      injection heq with hc hr
      subst hc
      subst hr
      rw [if_neg hbr, hsp] at hl
      rcases List.mem_cons.mp hl with he | hm
      · rw [he]
        have hx2 : breakFree x = true := ih x (by rw [hsp]; exact List.mem_cons_self x xs)
        simp only [breakFree, List.all_cons, Bool.and_eq_true] at hx2 ⊢
        exact ⟨by simp [hbr], hx2⟩
      · exact ih l (by rw [hsp]; exact List.mem_cons_of_mem x hm)

/-- `colonAfter` through `head?`. -/
theorem colonAfter_head (ws : Char → Bool) (u : List Char) :
    colonAfter ws u = decide ((u.dropWhile ws).head? = some ':') := by
  unfold colonAfter
  split
  · rename_i heq
    rw [heq]
    simp
  · rename_i hne
    cases hd : u.dropWhile ws with
    | nil => simp
    | cons x xs =>
      have hx : ¬ x = ':' := by
        intro he
        exact hne xs (by rw [hd, he])
      simp [hd, hx]

/-- A leading whitespace character is transparent to `colonAfter`. -/
theorem colonAfter_cons_lws (ws : Char → Bool) (c : Char) (t : List Char)
    (h : ws c = true) : colonAfter ws (c :: t) = colonAfter ws t := by
  unfold colonAfter
  rw [List.dropWhile_cons, if_pos h]

/-- `colonAfter` at a non-whitespace head only tests that head. -/
theorem colonAfter_cons_not (ws : Char → Bool) (c : Char) (t : List Char)
    (h : ws c = false) : colonAfter ws (c :: t) = decide (c = ':') := by
  rw [colonAfter_head, List.dropWhile_cons, if_neg (by simp [h])]
  simp

/-- `matchSeq` with a newline at the head of the text fails for newline-free
patterns. -/
theorem matchSeq_nl_head : ∀ (m t : List Char), noNlCI m = true →
    t.head? = some '\n' → matchSeq lws m t = false := by
  intro m t hm ht
  cases t with
  | nil => simp at ht
  | cons c cs =>
    have hc : c = '\n' := by simpa using ht
    subst hc
    cases m with
    | nil =>
      show colonAfter lws ('\n' :: cs) = false
      rw [colonAfter_cons_not lws '\n' cs (by decide)]
      decide
    | cons p ps =>
      show (ciEq p '\n' && matchSeq lws ps cs) = false
      have hp : (!(p.toLower = '\n') : Bool) = true := by
        unfold noNlCI at hm
        exact List.all_eq_true.mp hm p (List.mem_cons_self p ps)
      simp only [Bool.not_eq_true', decide_eq_false_iff_not] at hp
      have hce : ciEq p '\n' = false := by
        unfold ciEq
        simp [show '\n'.toLower = '\n' from by decide, hp]
      rw [hce, Bool.false_and]

/-- The three metadata markers contain no newline. -/
theorem markers_noNlCI : ∀ m ∈ metaMarkers, noNlCI m = true := by decide

/-- No marker pattern matches the empty line. -/
theorem markers_matchSeq_nil : ∀ m ∈ metaMarkers, matchSeq lws m [] = false := by decide

/-- A newline-headed text matches no metadata-marker line pattern. -/
theorem mm_nl_head (t : List Char) (ht : t.head? = some '\n') :
    metaLineMatch lws t = false := by
  have hdrop : t.dropWhile lws = t := by
    cases t with
    | nil => rfl
    | cons c cs =>
      have hc : c = '\n' := by simpa using ht
      subst hc
      rw [List.dropWhile_cons, if_neg (by decide)]
  unfold metaLineMatch
  rw [List.any_eq_false]
  intro m hm hms
  rw [hdrop] at hms
  rw [matchSeq_nl_head m t (markers_noNlCI m hm) ht] at hms
  exact absurd hms (by simp)

/-- A leading within-line whitespace character is transparent to the line
matcher. -/
theorem mm_cons_lws (c : Char) (t : List Char) (h : lws c = true) :
    metaLineMatch lws (c :: t) = metaLineMatch lws t := by
  unfold metaLineMatch
  rw [List.dropWhile_cons, if_pos h]

/-- A line-pattern match only inspects a prefix: appending text preserves
it. -/
theorem matchSeq_mono : ∀ (m u q : List Char),
    matchSeq lws m u = true → matchSeq lws m (u ++ q) = true := by
  intro m
  induction m with
  | nil =>
    intro u q h
    show colonAfter lws (u ++ q) = true
    have h' : colonAfter lws u = true := h
    rw [colonAfter_head] at h' ⊢
    rw [List.dropWhile_append]
    cases hd : u.dropWhile lws with
    | nil => rw [hd] at h'; simp at h'
    | cons x xs =>
      rw [hd] at h'
      simp only [List.isEmpty_cons]
      simpa using h'
  | cons p ps ih =>
    intro u q h
    cases u with
    | nil => exact absurd h (by simp [matchSeq])
    | cons c cs =>
      rw [List.cons_append]
      show (ciEq p c && matchSeq lws ps (cs ++ q)) = true
      have h' : (ciEq p c && matchSeq lws ps cs) = true := h
      simp only [Bool.and_eq_true] at h' ⊢
      exact ⟨h'.1, ih cs q h'.2⟩

/-- The line matcher only inspects a prefix. -/
theorem mm_mono (u q : List Char) (h : metaLineMatch lws u = true) :
    metaLineMatch lws (u ++ q) = true := by
  unfold metaLineMatch at h ⊢
  rw [List.any_eq_true] at h ⊢
  obtain ⟨m, hmem, hms⟩ := h
  refine ⟨m, hmem, ?_⟩
  rw [List.dropWhile_append]
  by_cases he : (u.dropWhile lws).isEmpty = true
  · have he' : u.dropWhile lws = [] := List.isEmpty_iff.mp he
    rw [he'] at hms
    rw [markers_matchSeq_nil m hmem] at hms
    exact absurd hms (by simp)
  · rw [if_neg he]
    exact matchSeq_mono m _ q hms

/-- `dropWhile` passes over an appended part whose first character fails the
predicate. -/
theorem dropWhile_append_stop (p : Char → Bool) (u w : List Char) (c : Char)
    (hc : p c = false) : (u ++ c :: w).dropWhile p = u.dropWhile p ++ c :: w := by
  rw [List.dropWhile_append]
  by_cases he : (u.dropWhile p).isEmpty = true
  · rw [if_pos he]
    rw [List.isEmpty_iff.mp he, List.nil_append]
    rw [List.dropWhile_cons, if_neg (by simp [hc])]
  · rw [if_neg he]

/-- `noNlCI` passes to the tail. -/
theorem noNlCI_tail {p : Char} {ps : List Char} (h : noNlCI (p :: ps) = true) :
    noNlCI ps = true := by
  unfold noNlCI at h ⊢
  rw [List.all_cons] at h
  simp only [Bool.and_eq_true] at h
  exact h.2

/-- Appending a newline-led continuation does not change a line-pattern match
on a break-free text. -/
theorem matchSeq_nlappend : ∀ (m v J : List Char), noNlCI m = true →
    breakFree v = true →
    matchSeq lws m (v ++ '\n' :: J) = matchSeq lws m v := by
  intro m
  induction m with
  | nil =>
    intro v J _ _
    show colonAfter lws (v ++ '\n' :: J) = colonAfter lws v
    rw [colonAfter_head, colonAfter_head]
    rw [dropWhile_append_stop lws v J '\n' (by decide)]
    cases hd : v.dropWhile lws with
    | nil => simp
    | cons x xs => simp
  | cons p ps ih =>
    intro v J hm hv
    cases v with
    | nil =>
      simp only [List.nil_append]
      rw [matchSeq_nl_head (p :: ps) ('\n' :: J) hm rfl]
      rfl
    | cons c cs =>
      rw [List.cons_append]
      show (ciEq p c && matchSeq lws ps (cs ++ '\n' :: J)) = (ciEq p c && matchSeq lws ps cs)
      rw [ih cs J (noNlCI_tail hm) (breakFree_tail hv)]

/-- Appending a newline-led continuation does not change the line matcher on
a break-free line. -/
theorem mm_nlappend (u J : List Char) (hu : breakFree u = true) :
    metaLineMatch lws (u ++ '\n' :: J) = metaLineMatch lws u := by
  unfold metaLineMatch
  rw [dropWhile_append_stop lws u J '\n' (by decide)]
  exact anyCongrOn metaMarkers _ _ fun m hm =>
    matchSeq_nlappend m _ J (markers_noNlCI m hm)
      (breakFree_subset u _ (List.dropWhile_subset lws) hu)

/-- A break-free string has no newline, hence no post-newline position to
check. -/
theorem NMA_breakFree (l : List Char) (h : breakFree l = true) :
    noMetaAfterNl l = true := by
  induction l with
  | nil => rfl
  | cons c rest ih =>
    have hcb : (!(isBreakChar c)) = true := by
      unfold breakFree at h
      exact List.all_eq_true.mp h c (List.mem_cons_self c rest)
    have hne : ¬(c = '\n') := by
      intro he
      rw [he] at hcb
      exact absurd hcb (by decide)
    simp only [noMetaAfterNl]
    rw [if_neg hne]
    simp [ih (breakFree_tail h)]

/-- All post-newline positions of a line followed by further text are clean
when the line is break-free and the continuation is clean. -/
theorem NMA_line_append (l w : List Char) (hbf : breakFree l = true)
    (hw : noMetaLineStart w = true) :
    noMetaAfterNl (l ++ '\n' :: w) = true := by
  induction l with
  | nil =>
    simp only [List.nil_append, noMetaAfterNl, if_true]
    unfold noMetaLineStart at hw
    exact hw
  | cons c l' ih =>
    have hcb : (!(isBreakChar c)) = true := by
      unfold breakFree at hbf
      exact List.all_eq_true.mp hbf c (List.mem_cons_self c l')
    have hne : ¬(c = '\n') := by
      intro he
      rw [he] at hcb
      exact absurd hcb (by decide)
    rw [List.cons_append]
    simp only [noMetaAfterNl]
    rw [if_neg hne]
    simp [ih (breakFree_tail hbf)]

/-- `noMetaAfterNl` is inherited by prefixes. -/
theorem NMA_of_append : ∀ u q : List Char,
    noMetaAfterNl (u ++ q) = true → noMetaAfterNl u = true := by
  intro u
  induction u with
  | nil => intro q _; rfl
  | cons c u' ih =>
    intro q h
    rw [List.cons_append] at h
    simp only [noMetaAfterNl, Bool.and_eq_true] at h ⊢
    constructor
    · by_cases hc : c = '\n'
      · rw [if_pos hc]
        have h1 := h.1
        rw [if_pos hc] at h1
        simp only [Bool.not_eq_true'] at h1 ⊢
        by_cases hmm : metaLineMatch lws u' = true
        · rw [mm_mono u' q hmm] at h1
          exact absurd h1 (by simp)
        · exact Bool.eq_false_iff.mpr hmm
      · rw [if_neg hc]
    · exact ih q h.2

/-- `noMetaLineStart` is inherited by prefixes. -/
theorem NMLS_of_append (u q : List Char) (h : noMetaLineStart (u ++ q) = true) :
    noMetaLineStart u = true := by
  unfold noMetaLineStart at h ⊢
  simp only [Bool.and_eq_true] at h ⊢
  refine ⟨?_, NMA_of_append u q h.2⟩
  have h1 := h.1
  simp only [Bool.not_eq_true'] at h1 ⊢
  by_cases hmm : metaLineMatch lws u = true
  · rw [mm_mono u q hmm] at h1
    exact absurd h1 (by simp)
  · exact Bool.eq_false_iff.mpr hmm

/-- Prepending a clean break-free line keeps the whole text clean. -/
theorem NMLS_line_cons (l w : List Char) (hbf : breakFree l = true)
    (hmm : metaLineMatch lws l = false) (hw : noMetaLineStart w = true) :
    noMetaLineStart (l ++ '\n' :: w) = true := by
  unfold noMetaLineStart
  simp only [Bool.and_eq_true]
  constructor
  · rw [mm_nlappend l w hbf]
    simp [hmm]
  · exact NMA_line_append l w hbf hw

/-- `intercalate` on a one-line list. -/
theorem intercalate_single (l : List Char) : List.intercalate ['\n'] [l] = l := by
  simp [List.intercalate]

/-- `intercalate` unfolding for two or more lines. -/
theorem intercalate_cons2 (a b : List Char) (t : List (List Char)) :
    List.intercalate ['\n'] (a :: b :: t) =
      a ++ '\n' :: List.intercalate ['\n'] (b :: t) := by
  simp [List.intercalate, List.intersperse_cons_cons]

/-- Joining clean break-free lines with newlines yields a text none of whose
lines matches a metadata marker. -/
theorem NMLS_intercalate : ∀ L : List (List Char),
    (∀ l ∈ L, breakFree l = true ∧ metaLineMatch lws l = false) →
    noMetaLineStart (List.intercalate ['\n'] L) = true := by
  intro L
  induction L with
  | nil => intro _; decide
  | cons l L' ih =>
    intro h
    cases L' with
    | nil =>
      rw [intercalate_single]
      have hl := h l (List.mem_cons_self l [])
      unfold noMetaLineStart
      simp only [Bool.and_eq_true]
      exact ⟨by simp [hl.2], NMA_breakFree l hl.1⟩
    | cons l2 L'' =>
      rw [intercalate_cons2]
      have hl := h l (List.mem_cons_self l _)
      exact NMLS_line_cons l _ hl.1 hl.2
        (ih fun x hx => h x (List.mem_cons_of_mem l hx))

/-- Any line-pattern match on the output of the first substitution was
already present in its input. -/
theorem matchSeq_cleanStep1 : ∀ (t m : List Char), noNlCI m = true →
    matchSeq lws m (cleanStep1 t) = true → matchSeq lws m t = true := by
  intro t
  induction t with
  | nil => intro m _ h; exact h
  | cons c rest ih =>
    intro m hm h
    simp only [cleanStep1] at h
    by_cases hd : (isHws c && (cleanStep1 rest).head? = some '\n') = true
    · rw [if_pos hd] at h
      have hhead : (cleanStep1 rest).head? = some '\n' := by
        simp only [Bool.and_eq_true, decide_eq_true_eq] at hd
        exact hd.2
      rw [matchSeq_nl_head m _ hm hhead] at h
      exact absurd h (by simp)
    · rw [if_neg hd] at h
      cases m with
      | cons p ps =>
        have h' : (ciEq p c && matchSeq lws ps (cleanStep1 rest)) = true := h
        simp only [Bool.and_eq_true] at h'
        show (ciEq p c && matchSeq lws ps rest) = true
        simp only [Bool.and_eq_true]
        exact ⟨h'.1, ih ps (noNlCI_tail hm) h'.2⟩
      | nil =>
        have h' : colonAfter lws (c :: cleanStep1 rest) = true := h
        show colonAfter lws (c :: rest) = true
        by_cases hlc : lws c = true
        · rw [colonAfter_cons_lws _ _ _ hlc] at h'
          rw [colonAfter_cons_lws _ _ _ hlc]
          exact ih [] (by decide) h'
        · have hlc' : lws c = false := Bool.eq_false_iff.mpr hlc
          rw [colonAfter_cons_not _ _ _ hlc'] at h'
          rw [colonAfter_cons_not _ _ _ hlc']
          exact h'

/-- Any line-pattern match on the output of the newline-capping substitution
was already present in its input. -/
theorem matchSeq_cleanStep2 : ∀ (t m : List Char), noNlCI m = true →
    matchSeq lws m (cleanStep2 t) = true → matchSeq lws m t = true := by
  intro t
  induction t with
  | nil => intro m _ h; exact h
  | cons c rest ih =>
    intro m hm h
    simp only [cleanStep2] at h
    by_cases hd : (c = '\n' && "\n\n".toList.isPrefixOf (cleanStep2 rest)) = true
    · rw [if_pos hd] at h
      have hhead : (cleanStep2 rest).head? = some '\n' := by
        simp only [Bool.and_eq_true, decide_eq_true_eq] at hd
        exact ((prefix_nlnl_iff _).mp hd.2).1
      rw [matchSeq_nl_head m _ hm hhead] at h
      exact absurd h (by simp)
    · rw [if_neg hd] at h
      cases m with
      | cons p ps =>
        have h' : (ciEq p c && matchSeq lws ps (cleanStep2 rest)) = true := h
        simp only [Bool.and_eq_true] at h'
        show (ciEq p c && matchSeq lws ps rest) = true
        simp only [Bool.and_eq_true]
        exact ⟨h'.1, ih ps (noNlCI_tail hm) h'.2⟩
      | nil =>
        have h' : colonAfter lws (c :: cleanStep2 rest) = true := h
        show colonAfter lws (c :: rest) = true
        by_cases hlc : lws c = true
        · rw [colonAfter_cons_lws _ _ _ hlc] at h'
          rw [colonAfter_cons_lws _ _ _ hlc]
          exact ih [] (by decide) h'
        · have hlc' : lws c = false := Bool.eq_false_iff.mpr hlc
          rw [colonAfter_cons_not _ _ _ hlc'] at h'
          rw [colonAfter_cons_not _ _ _ hlc']
          exact h'

/-- Any marker-line match on the output of the first substitution was
already present in its input. -/
theorem mm_cleanStep1 : ∀ s : List Char,
    metaLineMatch lws (cleanStep1 s) = true → metaLineMatch lws s = true := by
  intro s
  induction s with
  | nil => intro h; exact h
  | cons c rest ih =>
    intro h
    simp only [cleanStep1] at h
    by_cases hd : (isHws c && (cleanStep1 rest).head? = some '\n') = true
    · rw [if_pos hd] at h
      have hhead : (cleanStep1 rest).head? = some '\n' := by
        simp only [Bool.and_eq_true, decide_eq_true_eq] at hd
        exact hd.2
      rw [mm_nl_head _ hhead] at h
      exact absurd h (by simp)
    · rw [if_neg hd] at h
      by_cases hlc : lws c = true
      · rw [mm_cons_lws c _ hlc] at h
        rw [mm_cons_lws c rest hlc]
        exact ih h
      · have hlc' : lws c = false := Bool.eq_false_iff.mpr hlc
        unfold metaLineMatch at h ⊢
        rw [List.dropWhile_cons, if_neg (by simp [hlc'])] at h ⊢
        rw [List.any_eq_true] at h ⊢
        obtain ⟨m, hmem, hms⟩ := h
        refine ⟨m, hmem, ?_⟩
        have hfull : matchSeq lws m (cleanStep1 (c :: rest)) = true := by
          simp only [cleanStep1]
          rw [if_neg hd]
          exact hms
        exact matchSeq_cleanStep1 (c :: rest) m (markers_noNlCI m hmem) hfull

/-- Any marker-line match on the output of the newline-capping substitution
was already present in its input. -/
theorem mm_cleanStep2 : ∀ s : List Char,
    metaLineMatch lws (cleanStep2 s) = true → metaLineMatch lws s = true := by
  intro s
  induction s with
  | nil => intro h; exact h
  | cons c rest ih =>
    intro h
    simp only [cleanStep2] at h
    by_cases hd : (c = '\n' && "\n\n".toList.isPrefixOf (cleanStep2 rest)) = true
    · rw [if_pos hd] at h
      have hhead : (cleanStep2 rest).head? = some '\n' := by
        simp only [Bool.and_eq_true, decide_eq_true_eq] at hd
        exact ((prefix_nlnl_iff _).mp hd.2).1
      rw [mm_nl_head _ hhead] at h
      exact absurd h (by simp)
    · rw [if_neg hd] at h
      by_cases hlc : lws c = true
      · rw [mm_cons_lws c _ hlc] at h
        rw [mm_cons_lws c rest hlc]
        exact ih h
      · have hlc' : lws c = false := Bool.eq_false_iff.mpr hlc
        unfold metaLineMatch at h ⊢
        rw [List.dropWhile_cons, if_neg (by simp [hlc'])] at h ⊢
        rw [List.any_eq_true] at h ⊢
        obtain ⟨m, hmem, hms⟩ := h
        refine ⟨m, hmem, ?_⟩
        have hfull : matchSeq lws m (cleanStep2 (c :: rest)) = true := by
          simp only [cleanStep2]
          rw [if_neg hd]
          exact hms
        exact matchSeq_cleanStep2 (c :: rest) m (markers_noNlCI m hmem) hfull

/-- The first substitution keeps post-newline positions clean. -/
theorem NMA_cleanStep1 : ∀ s : List Char,
    noMetaAfterNl s = true → noMetaAfterNl (cleanStep1 s) = true := by
  intro s
  induction s with
  | nil => intro _; rfl
  | cons c rest ih =>
    intro h
    simp only [noMetaAfterNl, Bool.and_eq_true] at h
    simp only [cleanStep1]
    by_cases hd : (isHws c && (cleanStep1 rest).head? = some '\n') = true
    · rw [if_pos hd]
      exact ih h.2
    · rw [if_neg hd]
      simp only [noMetaAfterNl, Bool.and_eq_true]
      refine ⟨?_, ih h.2⟩
      by_cases hc : c = '\n'
      · rw [if_pos hc]
        have h1 := h.1
        rw [if_pos hc] at h1
        simp only [Bool.not_eq_true'] at h1 ⊢
        by_cases hmm : metaLineMatch lws (cleanStep1 rest) = true
        · rw [mm_cleanStep1 rest hmm] at h1
          exact absurd h1 (by simp)
        · exact Bool.eq_false_iff.mpr hmm
      · rw [if_neg hc]

/-- The newline-capping substitution keeps post-newline positions clean. -/
theorem NMA_cleanStep2 : ∀ s : List Char,
    noMetaAfterNl s = true → noMetaAfterNl (cleanStep2 s) = true := by
  intro s
  induction s with
  | nil => intro _; rfl
  | cons c rest ih =>
    intro h
    simp only [noMetaAfterNl, Bool.and_eq_true] at h
    simp only [cleanStep2]
    by_cases hd : (c = '\n' && "\n\n".toList.isPrefixOf (cleanStep2 rest)) = true
    · rw [if_pos hd]
      exact ih h.2
    · rw [if_neg hd]
      simp only [noMetaAfterNl, Bool.and_eq_true]
      refine ⟨?_, ih h.2⟩
      by_cases hc : c = '\n'
      · rw [if_pos hc]
        have h1 := h.1
        rw [if_pos hc] at h1
        simp only [Bool.not_eq_true'] at h1 ⊢
        by_cases hmm : metaLineMatch lws (cleanStep2 rest) = true
        · rw [mm_cleanStep2 rest hmm] at h1
          exact absurd h1 (by simp)
        · exact Bool.eq_false_iff.mpr hmm
      · rw [if_neg hc]

/-- The first substitution keeps the whole text clean of marker lines. -/
theorem NMLS_cleanStep1 (s : List Char) (h : noMetaLineStart s = true) :
    noMetaLineStart (cleanStep1 s) = true := by
  unfold noMetaLineStart at h ⊢
  simp only [Bool.and_eq_true] at h ⊢
  refine ⟨?_, NMA_cleanStep1 s h.2⟩
  have h1 := h.1
  simp only [Bool.not_eq_true'] at h1 ⊢
  by_cases hmm : metaLineMatch lws (cleanStep1 s) = true
  · rw [mm_cleanStep1 s hmm] at h1
    exact absurd h1 (by simp)
  · exact Bool.eq_false_iff.mpr hmm

/-- The newline-capping substitution keeps the whole text clean of marker
lines. -/
theorem NMLS_cleanStep2 (s : List Char) (h : noMetaLineStart s = true) :
    noMetaLineStart (cleanStep2 s) = true := by
  unfold noMetaLineStart at h ⊢
  simp only [Bool.and_eq_true] at h ⊢
  refine ⟨?_, NMA_cleanStep2 s h.2⟩
  have h1 := h.1
  simp only [Bool.not_eq_true'] at h1 ⊢
  by_cases hmm : metaLineMatch lws (cleanStep2 s) = true
  · rw [mm_cleanStep2 s hmm] at h1
    exact absurd h1 (by simp)
  · exact Bool.eq_false_iff.mpr hmm

/-- Left-stripping Python whitespace keeps the text clean of marker lines. -/
theorem NMLS_dropWhile_ws : ∀ s : List Char, noMetaLineStart s = true →
    noMetaLineStart (s.dropWhile isPyWs) = true := by
  intro s
  induction s with
  | nil => intro h; exact h
  | cons c rest ih =>
    intro h
    rw [List.dropWhile_cons]
    by_cases hp : isPyWs c = true
    · rw [if_pos hp]
      apply ih
      unfold noMetaLineStart at h ⊢
      simp only [Bool.and_eq_true] at h ⊢
      have h2 := h.2
      simp only [noMetaAfterNl, Bool.and_eq_true] at h2
      refine ⟨?_, h2.2⟩
      by_cases hlc : lws c = true
      · have h1 := h.1
        rw [mm_cons_lws c rest hlc] at h1
        exact h1
      · have hc : c = '\n' := by
          have hlc' : lws c = false := Bool.eq_false_iff.mpr hlc
          unfold lws at hlc'
          rw [hp] at hlc'
          simp only [Bool.true_and, Bool.not_eq_false'] at hlc'
          exact of_decide_eq_true hlc'
        have h21 := h2.1
        rw [if_pos hc] at h21
        exact h21
    · rw [if_neg hp]
      exact h

/-- `_clean_text` keeps the text clean of marker lines. -/
theorem NMLS_clean_text (s : List Char) (h : noMetaLineStart s = true) :
    noMetaLineStart (clean_text s) = true := by
  unfold clean_text pyStrip
  have h2 := NMLS_cleanStep2 _ (NMLS_cleanStep1 s h)
  have h3 := NMLS_dropWhile_ws _ h2
  obtain ⟨t, ht⟩ := dropTailWhile_append isPyWs ((cleanStep2 (cleanStep1 s)).dropWhile isPyWs)
  exact NMLS_of_append _ t (by rw [ht]; exact h3)

/-- A line surviving the metadata filter while break-free carries no marker
match under either whitespace class. -/
theorem mm_lws_of_not_meta (l : List Char) (hbf : breakFree l = true)
    (h : isMetaLine l = false) : metaLineMatch lws l = false := by
  unfold isMetaLine at h
  rw [← metaLineMatch_congr_on isPyWs lws l (breakFree_ws l hbf)]
  exact h

/-- The plain-text assembly on break-free lines yields a text with no
marker line. -/
theorem NMLS_extract_plain_lines (lines : List (List Char))
    (hbf : ∀ l ∈ lines, breakFree l = true) :
    noMetaLineStart (extract_plain_from_lines lines).text = true := by
  simp only [extract_plain_from_lines]
  cases hscan : scanTitle lines with
  | none =>
    dsimp only
    apply NMLS_clean_text
    apply NMLS_intercalate
    intro l hl
    have hmeta : isMetaLine l = false := by
      have h1 := List.of_mem_filter hl
      simp only [Bool.not_eq_true'] at h1
      exact h1
    have hmem := List.mem_of_mem_filter hl
    exact ⟨hbf l hmem, mm_lws_of_not_meta l (hbf l hmem) hmeta⟩
  | some p =>
    obtain ⟨i, cap⟩ := p
    dsimp only
    apply NMLS_clean_text
    apply NMLS_intercalate
    intro l hl
    have hmeta : isMetaLine l = false := by
      have h1 := List.of_mem_filter hl
      simp only [Bool.not_eq_true'] at h1
      exact h1
    have hmem := List.mem_of_mem_filter hl
    rcases List.mem_or_eq_of_mem_set hmem with hm | he
    · exact ⟨hbf l hm, mm_lws_of_not_meta l (hbf l hm) hmeta⟩
    · subst he
      exact ⟨rfl, by decide⟩

/-- The plain-text branch never sets a byline and never leaves a marker
line in the text. -/
theorem extract_plain_props (s : List Char) :
    (extract_plain s).byline = none ∧
    noMetaLineStart (extract_plain s).text = true := by
  constructor
  · rfl
  · unfold extract_plain
    apply NMLS_extract_plain_lines
    intro l hl
    obtain ⟨l0, hl0, hmap⟩ := List.mem_map.mp hl
    rw [← hmap]
    exact breakFree_pyRstrip l0 (splitlines_breakFree s l0 hl0)

/-- C7 (amended): for every input whose sanitized text has no angle bracket,
the result's byline is absent and no line of the returned text begins, after
optional whitespace, with `URL Source`, `Published Time` or
`Markdown Content` followed by optional whitespace and a colon.  (The
markers may still occur mid-line: only line-anchored matches are removed.) -/
theorem no_marker_line_starts (html : List Char) (base : Option (List Char))
    (parse : List Char → Node) (resolve : List Char → List Char → List Char)
    (h1 : (sanitize html).contains '<' = false)
    (h2 : (sanitize html).contains '>' = false) :
    (extract_readable_text html base parse resolve).byline = none ∧
    noMetaLineStart (extract_readable_text html base parse resolve).text = true := by
  have hcond : (!(sanitize html).contains '<' && !(sanitize html).contains '>') = true := by
    rw [h1, h2]; rfl
  have hdisp : extract_readable_text html base parse resolve =
      extract_plain (sanitize html) := by
    simp only [extract_readable_text]
    rw [if_pos hcond]
  rw [hdisp]
  exact extract_plain_props (sanitize html)

/-- C7 witness: a concrete bracket-free input satisfying the theorem's
hypotheses. -/
theorem no_marker_line_starts_witness :
    (extract_readable_text "Body only.".toList none noParse noResolve).byline = none ∧
    noMetaLineStart (extract_readable_text "Body only.".toList none noParse noResolve).text
      = true :=
  no_marker_line_starts "Body only.".toList none noParse noResolve (by decide) (by decide)

/-- C7 counterexample: a bracket-free input with a mid-line `URL Source:`;
the marker survives in the returned text, so the claim's "none of the
substrings occur anywhere in the text" fails. -/
theorem midline_marker_survives :
    ((sanitize "x URL Source: y".toList).contains '<' = false) ∧
    ((sanitize "x URL Source: y".toList).contains '>' = false) ∧
    (extract_readable_text "x URL Source: y".toList none noParse noResolve).text
        = "x URL Source: y".toList ∧
    containsSub "URL Source:".toList
      (extract_readable_text "x URL Source: y".toList none noParse noResolve).text = true :=
  ⟨by decide, by decide, by decide, by decide⟩

end NewsCLI
